import Mathlib

/-!
Shallow embedding of the ingestion and normalization core of the
tw-stock-6-v2 dashboard (docs/app.js, both script variants, and the
unnamed variant file).  JavaScript numbers are modelled as exact
rationals, JavaScript strings as Lean strings operating on their
character lists, `null`/`undefined` as `Option`, and a thrown
exception escaping a function's boundary as `Except.error`.
-/

namespace TwStock

/-! ### Character-level string helpers (JS `split`, `trim`, char tests) -/

/-- Split a character list at a separator character, JS `String.split(sep)`. -/
def splitOnChar (sep : Char) : List Char → List Char → List (List Char)
  | [], acc => [acc.reverse]
  | c :: rest, acc =>
    if c = sep then acc.reverse :: splitOnChar sep rest []
    else splitOnChar sep rest (c :: acc)

/-- Remove leading and trailing whitespace, JS `String.prototype.trim`. -/
def trimChars (l : List Char) : List Char :=
  ((l.dropWhile Char.isWhitespace).reverse.dropWhile Char.isWhitespace).reverse

/-- JS `String.prototype.trim` as a `String → String` function. -/
def jsTrim (s : String) : String :=
  String.mk (trimChars s.toList)

/-- First character is an ASCII digit, JS regex `/^\d/`. -/
def headIsDigit : List Char → Bool
  | c :: _ => c.isDigit
  | [] => false

/-- List starts with a dot followed by a digit (used to reason about how far
a numeric match can extend). -/
def startsDotDigit : List Char → Bool
  | '.' :: c :: _ => c.isDigit
  | _ => false

/-- Digit characters folded into a natural number (most significant first). -/
def natOfDigits (ds : List Char) : ℕ :=
  ds.foldl (fun n c => 10 * n + (c.toNat - '0'.toNat)) 0

/-- Value of a fractional digit block: `fracOfDigits ['2','5'] = 25/100`. -/
def fracOfDigits (ds : List Char) : ℚ :=
  (natOfDigits ds : ℚ) / (10 : ℚ) ^ ds.length

/-! ### Numeric normalizer (`toNumber` in docs/app.js)

```js
function toNumber(v) {
  if (v === null || v === undefined) return null;
  const s = String(v).replace( ALL-COMMAS , "").trim();
  const m = s.match( REGEX `-?\d+(?:\.\d+)?` );
  return m ? Number(m[0]) : null;
}
```
The regex search is leftmost-first; at a position it matches an optional
minus sign, a maximal digit run, then optionally a dot followed by a
maximal nonempty digit run. -/

/-- Match `\d+(?:\.\d+)?` at the head of the list, greedily; returns the
matched token. -/
def matchDigitsAt (l : List Char) : Option (List Char) :=
  let ds := l.takeWhile Char.isDigit
  if ds = [] then none
  else
    let rest := l.drop ds.length
    if rest.head? = some '.' then
      let fs := rest.tail.takeWhile Char.isDigit
      if fs = [] then some ds else some (ds ++ '.' :: fs)
    else some ds

/-- Match `-?\d+(?:\.\d+)?` at the head of the list.  A lone minus sign not
followed by a digit does not match (the regex engine backtracks over the
optional sign and then fails on the non-digit character). -/
def matchNumAt (l : List Char) : Option (List Char) :=
  match l with
  | [] => none
  | c :: rest =>
    if c = '-' then (matchDigitsAt rest).map (fun tok => '-' :: tok)
    else matchDigitsAt (c :: rest)

/-- Leftmost regex match: scan positions left to right and return the first
token matched by `matchNumAt`. -/
def findNum : List Char → Option (List Char)
  | [] => none
  | c :: rest =>
    match matchNumAt (c :: rest) with
    | some tok => some tok
    | none => findNum rest

/-- Numeric value of a matched token (`Number(m[0])`), modelled exactly in ℚ.
In a matched token everything after the dot is a digit run. -/
def unsignedTokenVal (t : List Char) : ℚ :=
  let ip := t.takeWhile Char.isDigit
  let rest := t.drop ip.length
  if rest.head? = some '.' then (natOfDigits ip : ℚ) + fracOfDigits rest.tail
  else (natOfDigits ip : ℚ)

/-- Value of a possibly minus-signed token. -/
def numTokenVal (t : List Char) : ℚ :=
  if t.head? = some '-' then - unsignedTokenVal t.tail else unsignedTokenVal t

/-- `toNumber` from docs/app.js on a string input: strip all commas, trim,
then take the value of the first `-?\d+(?:\.\d+)?` match, or `none`. -/
def toNumber (s : String) : Option ℚ :=
  (findNum (trimChars (s.toList.filter (fun c => c ≠ ',')))).map numTokenVal

/-- `toNumber` on a JS value that may be `null`/`undefined` (those return
`null` before any string handling). -/
def toNumberJS : Option String → Option ℚ
  | none => none
  | some s => toNumber s

/-! ### Classification engine (docs/app.js `trendInfo`, `foreignTag`) -/

inductive Lv where
  | lv1 | lv2 | lv3
deriving DecidableEq, Repr

inductive Cls where
  | pos | neg | flat
deriving DecidableEq, Repr

structure Trend where
  cls : Cls
  lv : Lv
  icon : String
deriving DecidableEq, Repr

/-- `trendInfo(change, changePct)` from docs/app.js.  `change ?? 0` and
`changePct ?? 0` are the `getD 0`; `Math.abs(p || 0)` is `|p|` in the
rational model (where the only falsy number is 0). -/
def trendInfo (change changePct : Option ℚ) : Trend :=
  let c := change.getD 0
  let p := changePct.getD 0
  let absP := |p|
  let lv := if 3 ≤ absP then Lv.lv3 else if 1 ≤ absP then Lv.lv2 else Lv.lv1
  if 0 < c then ⟨Cls.pos, lv, "📈"⟩
  else if c < 0 then ⟨Cls.neg, lv, "📉"⟩
  else ⟨Cls.flat, Lv.lv1, "➖"⟩

structure FTag where
  text : String
  cls : Cls
  lv : Lv
deriving DecidableEq, Repr

/-- `foreignTag(net)` from docs/app.js (identical in both script variants). -/
def foreignTag (net : Option ℚ) : Option FTag :=
  match net with
  | none => none
  | some n =>
    if |n| < 800 then none
    else if 3000 ≤ n then some ⟨"強買超", Cls.pos, Lv.lv3⟩
    else if 800 ≤ n then some ⟨"買超", Cls.pos, Lv.lv2⟩
    else if n ≤ -3000 then some ⟨"強賣超", Cls.neg, Lv.lv3⟩
    else some ⟨"賣超", Cls.neg, Lv.lv2⟩

/-! ### Number formatting used by the unnamed-variant badges -/

/-- `Math.round`: round half toward positive infinity. -/
def jsRound (q : ℚ) : ℤ := ⌊q + 1 / 2⌋

/-- Rounding used by `toLocaleString`: round half away from zero. -/
def roundHalfAway (q : ℚ) : ℤ :=
  if 0 ≤ q then ⌊q + 1 / 2⌋ else -⌊-q + 1 / 2⌋

/-- Insert a comma after every group of three characters of a reversed digit
list (helper for en-US thousands grouping). -/
def groupRev : List Char → List Char
  | a :: b :: c :: d :: rest => a :: b :: c :: ',' :: groupRev (d :: rest)
  | l => l

/-- en-US thousands grouping of a natural number: `1234567 ↦ "1,234,567"`. -/
def groupThousands (n : ℕ) : String :=
  String.mk ((groupRev (Nat.toDigits 10 n).reverse).reverse)

/-- Digits of `n` left-padded with zeros to width `d`. -/
def padZeros (d : ℕ) (n : ℕ) : String :=
  let ds := Nat.toDigits 10 n
  String.mk (List.replicate (d - ds.length) '0' ++ ds)

/-- `x.toLocaleString("en-US", { maximumFractionDigits: d, minimumFractionDigits: d })`
as used by `fmtNum` in the unnamed variant. -/
def fmtNum (q : ℚ) (digits : ℕ) : String :=
  let scaled := roundHalfAway (q * (10 : ℚ) ^ digits)
  let sign := if scaled < 0 then "-" else ""
  let a := scaled.natAbs
  if digits = 0 then sign ++ groupThousands a
  else sign ++ groupThousands (a / 10 ^ digits) ++ "." ++ padZeros digits (a % 10 ^ digits)

/-- `fmtSigned` from the unnamed variant: plus sign prefixed for positives. -/
def fmtSigned (q : ℚ) (digits : ℕ) : String :=
  (if 0 < q then "+" else "") ++ fmtNum q digits

structure JsBadge where
  cls : String
  label : String
deriving DecidableEq, Repr

/-- `badgeForChange(chg)` from the unnamed variant file.  The input models
`Number(chg)`; `none` stands for a non-finite result (NaN/±Infinity), which
the source treats like 0 (flat). -/
def badgeForChange (chg : Option ℚ) : JsBadge :=
  match chg with
  | none => ⟨"badge flat", "—"⟩
  | some x =>
    if x = 0 then ⟨"badge flat", "—"⟩
    else
      let lv := if 5 ≤ |x| then "lv3" else if 1 ≤ |x| then "lv2" else "lv1"
      ⟨"badge " ++ (if 0 < x then "pos" else "neg") ++ " " ++ lv, fmtSigned x 2⟩

/-- `badgeForForeignLots(netLots)` from the unnamed variant file. -/
def badgeForForeignLots (netLots : Option ℚ) : Option JsBadge :=
  match netLots with
  | none => none
  | some x =>
    if |x| < 800 then none
    else
      let lv := if 3000 ≤ |x| then "lv3" else "lv2"
      some ⟨"badge " ++ (if 0 < x then "pos" else "neg") ++ " " ++ lv,
            (if 0 < x then "買超" else "賣超") ++ " " ++ fmtNum |x| 0 ++ " 張"⟩

/-! ### Line preprocessing shared by both raw-text parsers

```js
const lines = text.split("\n").map((s) => s.trim()).filter((s) => s.length);
```
-/

/-- Split on newlines, trim each line, drop empty lines. -/
def jsLines (text : String) : List String :=
  ((splitOnChar '\n' text.toList []).map (fun l => String.mk (trimChars l))).filter
    (fun s => s ≠ "")

/-! ### ZGB broker-flow parser (`parseZgb` in docs/app.js) -/

structure ZgbRow where
  name : String
  buy : ℚ
  sell : ℚ
  diff : ℚ
deriving DecidableEq, Repr

structure ZgbResult where
  date : Option String
  rows : List ZgbRow
  error : Option String
deriving DecidableEq, Repr

/-- Try to match the date regex `資料日期：(\d{8})` at the head of the list,
returning the captured 8 digits. -/
def matchZgbDateAt (l : List Char) : Option String :=
  let lit := "資料日期：".toList
  if l.take lit.length = lit then
    let ds := (l.drop lit.length).take 8
    if ds.length = 8 ∧ ds.all Char.isDigit then some (String.mk ds) else none
  else none

/-- Leftmost match of a position-wise matcher over a character list
(regex `String.prototype.match` search order). -/
def findFirstSome (f : List Char → Option String) : List Char → Option String
  | [] => none
  | c :: rest =>
    match f (c :: rest) with
    | some x => some x
    | none => findFirstSome f rest

/-- `text.match(REGEX 資料日期：(\d{8}))?.[1]`. -/
def zgbDate (text : String) : Option String :=
  findFirstSome matchZgbDateAt text.toList

/-- The four ZGB header tokens match the lines at index `i`. -/
def zgbHeaderAt (lines : List String) (i : ℕ) : Bool :=
  lines.getD i "" == "券商名稱" && lines.getD (i + 1) "" == "買進金額" &&
  lines.getD (i + 2) "" == "賣出金額" && lines.getD (i + 3) "" == "差額"

/-- All candidate header start indices.  The source scans
`for (let i = 0; i < lines.length - 4; i++)`. -/
def zgbHeaderIdxs (lines : List String) : List ℕ :=
  (List.range (lines.length - 4)).filter (fun i => zgbHeaderAt lines i)

/-- `isBrokerName(name)`: nonempty and not starting with a digit. -/
def isBrokerName (name : String) : Bool :=
  name != "" && !headIsDigit name.toList

/-- The `while` loop of `parseAt`: read groups of 4 lines starting at `j`
(name, buy, sell, diff), stop when a numeric field fails `toNumber` or when
6 rows have been admitted.  A digit-prefixed name skips the group but keeps
scanning.  `fuel` only bounds the recursion; each iteration requires
`j + 3 < lines.length` and advances `j` by 4, so any fuel of at least
`lines.length + 1` is never exhausted. -/
def zgbParseAtAux (lines : List String) : ℕ → ℕ → List ZgbRow → List ZgbRow
  | 0, _, rows => rows
  | fuel + 1, j, rows =>
    if j + 3 < lines.length then
      match toNumber (lines.getD (j + 1) ""), toNumber (lines.getD (j + 2) ""),
            toNumber (lines.getD (j + 3) "") with
      | some nb, some ns, some nd =>
        let name := lines.getD j ""
        let rows2 := if isBrokerName name then rows ++ [⟨name, nb, ns, nd⟩] else rows
        if 6 ≤ rows2.length then rows2
        else zgbParseAtAux lines fuel (j + 4) rows2
      | _, _, _ => rows
    else rows

/-- `parseAt(i)` from docs/app.js: parse rows following the header at `i`. -/
def zgbParseAt (lines : List String) (i : ℕ) : List ZgbRow :=
  zgbParseAtAux lines (lines.length + 1) (i + 4) []

/-- Candidate selection: keep the candidate parse with the strictly greatest
number of rows (`if (rows.length > best.length) best = rows`). -/
def zgbBest (lines : List String) : List ZgbRow :=
  (zgbHeaderIdxs lines).foldl
    (fun best i =>
      let rows := zgbParseAt lines i
      if best.length < rows.length then rows else best)
    []

/-- `parseZgb(raw)` from docs/app.js.  `none`/`""` model the falsy guard. -/
def parseZgb (raw : Option String) : ZgbResult :=
  match raw with
  | none => ⟨none, [], some "ZGB 無資料"⟩
  | some text =>
    if text = "" then ⟨none, [], some "ZGB 無資料"⟩
    else
      let date := zgbDate text
      let lines := jsLines text
      let best := zgbBest lines
      if best.length = 0 then ⟨date, [], some "ZGB 找不到『券商』段落（可能版面變更）"⟩
      else ⟨date, best.take 6, none⟩

/-! ### ZGK_D dual ranking parser (`parseZgkD` in docs/app.js) -/

structure ZgkRow where
  rank : Option ℚ
  name : String
  vol : Option ℚ
  close : Option ℚ
  chg : Option ℚ
deriving DecidableEq, Repr

structure ZgkResult where
  date : Option String
  buy : List ZgkRow
  sell : List ZgkRow
  error : Option String
deriving DecidableEq, Repr

/-- Day part of the ZGK date regex: one or two digits, greedy. -/
def zgkDay (rest : List Char) : Option (List Char) :=
  match rest with
  | d1 :: d2 :: _ =>
    if d1.isDigit then some (if d2.isDigit then [d1, d2] else [d1]) else none
  | [d1] => if d1.isDigit then some [d1] else none
  | [] => none

/-- Month-slash-day part `[0-9]{1,2} SLASH [0-9]{1,2}` with the regex
engine's backtracking on the greedy month. -/
def zgkMD : List Char → Option (List Char)
  | a :: b :: c :: rest =>
    if a.isDigit && b.isDigit && c = '/' then
      (zgkDay rest).map (fun ds => [a, b, '/'] ++ ds)
    else if a.isDigit && b = '/' then
      (zgkDay (c :: rest)).map (fun ds => [a, '/'] ++ ds)
    else none
  | _ => none

/-- Try to match `日期：([0-9]{1,2} SLASH [0-9]{1,2})` at the head. -/
def matchZgkDateAt (l : List Char) : Option String :=
  let lit := "日期：".toList
  if l.take lit.length = lit then (zgkMD (l.drop lit.length)).map String.mk
  else none

def zgkDate (text : String) : Option String :=
  findFirstSome matchZgkDateAt text.toList

/-- JS regex `/^\d+$/`. -/
def allDigits (s : String) : Bool :=
  s != "" && s.toList.all Char.isDigit

/-- The five ZGK header tokens match the lines at index `i`. -/
def zgkHeaderAt (lines : List String) (i : ℕ) : Bool :=
  lines.getD i "" == "名次" && lines.getD (i + 1) "" == "股票名稱" &&
  lines.getD (i + 2) "" == "超張數" && lines.getD (i + 3) "" == "收盤價" &&
  lines.getD (i + 4) "" == "漲跌"

/-- `lines.findIndex(...)`: the FIRST header occurrence only. -/
def zgkHeadIdx (lines : List String) : Option ℕ :=
  (List.range lines.length).find? (fun i => zgkHeaderAt lines i)

/-- The `while` loop of `parseZgkD`: groups of 10 lines
(rank, name, vol, close, chg for the buy side, then the same for the sell
side).  The loop breaks when the buy-side rank is not all digits; the
sell-side sub-row is pushed only when its rank is all digits.  Fuel as in
`zgbParseAtAux` (each iteration needs `j + 9 < lines.length` and advances
`j` by 10). -/
def zgkAux (lines : List String) :
    ℕ → ℕ → List ZgkRow → List ZgkRow → List ZgkRow × List ZgkRow
  | 0, _, buy, sell => (buy, sell)
  | fuel + 1, j, buy, sell =>
    if j + 9 < lines.length then
      if allDigits (lines.getD j "") then
        let rowBuy : ZgkRow :=
          ⟨toNumber (lines.getD j ""), lines.getD (j + 1) "",
           toNumber (lines.getD (j + 2) ""), toNumber (lines.getD (j + 3) ""),
           toNumber (lines.getD (j + 4) "")⟩
        let r2 := lines.getD (j + 5) ""
        let rowSell : ZgkRow :=
          ⟨toNumber r2, lines.getD (j + 6) "",
           toNumber (lines.getD (j + 7) ""), toNumber (lines.getD (j + 8) ""),
           toNumber (lines.getD (j + 9) "")⟩
        let buy2 := buy ++ [rowBuy]
        let sell2 := if allDigits r2 then sell ++ [rowSell] else sell
        if 50 ≤ buy2.length then (buy2, sell2)
        else zgkAux lines fuel (j + 10) buy2 sell2
      else (buy, sell)
    else (buy, sell)

/-- Rows parsed from position `start` (the line right after a header). -/
def zgkRowsFrom (lines : List String) (start : ℕ) : List ZgkRow × List ZgkRow :=
  zgkAux lines (lines.length + 1) start [] []

/-- `parseZgkD(raw)` from docs/app.js.  In the `!raw` branch the source
returns `{date:null, rows:[], error}`; consumers read `zgk.buy || []`, so
the empty `buy`/`sell` here are observationally the same. -/
def parseZgkD (raw : Option String) : ZgkResult :=
  match raw with
  | none => ⟨none, [], [], some "ZGK_D 無資料"⟩
  | some text =>
    if text = "" then ⟨none, [], [], some "ZGK_D 無資料"⟩
    else
      let date := zgkDate text
      let lines := jsLines text
      match zgkHeadIdx lines with
      | none => ⟨date, [], [], some "ZGK_D 找不到表頭"⟩
      | some headIdx =>
        let bs := zgkRowsFrom lines (headIdx + 5)
        ⟨date, bs.1, bs.2, none⟩

/-! ### Ticker validation and the extension-set pipelines -/

/-- The fixed universe, `FUTURES_SUPPORTED` / the four tickers of
`data.stocks` in canonical order. -/
def fixedTickers : List String := ["2330", "2317", "3231", "2382"]

/-- JS regex `/^\d{4,6}$/` on an already-trimmed string. -/
def isTickerShape (s : String) : Bool :=
  4 ≤ s.toList.length && s.toList.length ≤ 6 && s.toList.all Char.isDigit

/-- `normTicker(s)` from the first docs/app.js variant: trim, empty or
non-matching input maps to the empty string. -/
def normTicker (s : Option String) : String :=
  let t := jsTrim (s.getD "")
  if t = "" then ""
  else if isTickerShape t then t else ""

/-- `isValidTicker(t)` from the second docs/app.js variant. -/
def isValidTicker (t : Option String) : Bool :=
  isTickerShape (jsTrim (t.getD ""))

/-- `readExtraTickers()` from the first variant: the stored JSON value is
modelled as `Option (List String)`, `none` covering a missing key, a JSON
parse failure and a non-array value (all return `["", ""]`); otherwise the
first two slots are read (`String(arr[0] ?? "")`). -/
def readExtraTickers (stored : Option (List String)) : List String :=
  match stored with
  | none => ["", ""]
  | some arr => [arr.getD 0 "", arr.getD 1 ""]

/-- The extras computed by `init` in the first variant:
```js
const [a, b] = readExtraTickers().map(normTicker);
const extras = [a, b].filter((x) => x && !fixed.some((s) => String(s.ticker) === String(x)));
```
-/
def initExtras (stored : Option (List String)) (fixed : List String) : List String :=
  ((readExtraTickers stored).map (fun s => normTicker (some s))).filter
    (fun x => x != "" && !fixed.contains x)

/-- `getExtraTickers()` from the second variant: stringify+trim each entry,
drop falsy entries, keep the first two. -/
def getExtraTickers (stored : Option (List String)) : List String :=
  match stored with
  | none => []
  | some arr => ((arr.map jsTrim).filter (fun s => s ≠ "")).take 2

/-- The extension list `renderAll` passes to `renderStocks`:
`getExtraTickers().filter(isValidTicker)`. -/
def renderAllExtras (stored : Option (List String)) : List String :=
  (getExtraTickers stored).filter (fun t => isValidTicker (some t))

/-- The `apply` handler path in the second variant:
`tickers.map(trim).filter(Boolean).slice(0, 2)` then `filter(isValidTicker)`. -/
def applyExtras (tickers : List String) : List String :=
  (((tickers.map jsTrim).filter (fun s => s ≠ "")).take 2).filter
    (fun t => isValidTicker (some t))

/-! ### Render sequencer model (`renderAll` / `renderStocks`, second variant)

`renderStocks(data, extraTickers)` synchronously clears `#stocks` and
appends the fixed cards, then for each extension ticker awaits
`fetchExtraStock` and appends the resulting card (or an error card).  An
invocation is therefore the action sequence
`reset :: extras.map commitExtra`, where every `commitExtra` sits after a
suspension point (an awaited network fetch).  Invocations triggered by the
`apply`/`clear` handlers can overlap; the event loop executes some
interleaving of their action sequences.  Cards carry the invocation number
purely as observational instrumentation — the source itself has no
generation tagging whatsoever. -/

inductive Card where
  | fixedCard (gen : ℕ) (ticker : String)
  | extraCard (gen : ℕ) (ticker : String)
deriving DecidableEq, Repr

/-- Which invocation committed this card. -/
def Card.gen : Card → ℕ
  | .fixedCard g _ => g
  | .extraCard g _ => g

inductive RSAction where
  /-- `root.innerHTML = ""` followed by the synchronous fixed-card loop. -/
  | reset (gen : ℕ)
  /-- `root.appendChild(...)` for one extension ticker, executed after the
  awaited `fetchExtraStock` resolves (an error card on rejection commits the
  same way). -/
  | commitExtra (gen : ℕ) (ticker : String)
deriving DecidableEq, Repr

/-- The action sequence of one `renderStocks` invocation. -/
def rsProgram (gen : ℕ) (extras : List String) : List RSAction :=
  RSAction.reset gen :: extras.map (RSAction.commitExtra gen)

/-- Effect of one action on the `#stocks` DOM node. -/
def rsStep (fixed : List String) (dom : List Card) : RSAction → List Card
  | .reset g => fixed.map (Card.fixedCard g)
  | .commitExtra g t => dom ++ [Card.extraCard g t]

/-- Final DOM contents after executing a trace of actions. -/
def rsExec (fixed : List String) (trace : List RSAction) : List Card :=
  trace.foldl (rsStep fixed) []

/-- `trace` is an interleaving of the two invocations' action sequences
(the possible event-loop schedules; fetch resolution order is arbitrary). -/
inductive Interleave : List RSAction → List RSAction → List RSAction → Prop
  | nil : Interleave [] [] []
  | left {a : RSAction} {l r t : List RSAction} :
      Interleave l r t → Interleave (a :: l) r (a :: t)
  | right {a : RSAction} {l r t : List RSAction} :
      Interleave l r t → Interleave l (a :: r) (a :: t)

/-! ### JS `Number(string)` semantics (used with `|| 0` in the T86 adapter)

`Number(s)` trims, maps the empty string to 0, and otherwise parses a
complete optionally-signed decimal literal with optional fraction and
optional exponent, returning NaN (`none` here) on anything else.
`Infinity` and non-decimal radix literals are not modelled; the payload
cells this is applied to are plain comma-grouped decimal numerals. -/

/-- A nonempty all-digit run consumed to the end, as a natural number. -/
def expDigits (l : List Char) : Option ℕ :=
  if l ≠ [] ∧ l.all Char.isDigit then some (natOfDigits l) else none

/-- Optional exponent part of a decimal literal applied to mantissa `m`. -/
def withExp (m : ℚ) (rest : List Char) : Option ℚ :=
  match rest with
  | [] => some m
  | 'e' :: r => applySignedExp m r
  | 'E' :: r => applySignedExp m r
  | _ => none
where
  applySignedExp (m : ℚ) (r : List Char) : Option ℚ :=
    match r with
    | '+' :: r2 => (expDigits r2).map (fun e => m * (10 : ℚ) ^ e)
    | '-' :: r2 => (expDigits r2).map (fun e => m / (10 : ℚ) ^ e)
    | _ => (expDigits r).map (fun e => m * (10 : ℚ) ^ e)

/-- Unsigned decimal literal: `digits [. digits?] [exp]` or `. digits [exp]`. -/
def parseUnsignedNum (l : List Char) : Option ℚ :=
  match l with
  | '.' :: rest =>
    let ds := rest.takeWhile Char.isDigit
    if ds = [] then none
    else withExp (fracOfDigits ds) (rest.drop ds.length)
  | _ =>
    let ds := l.takeWhile Char.isDigit
    if ds = [] then none
    else
      match l.drop ds.length with
      | '.' :: r2 =>
        let fs := r2.takeWhile Char.isDigit
        withExp ((natOfDigits ds : ℚ) + fracOfDigits fs) (r2.drop fs.length)
      | rest => withExp (natOfDigits ds : ℚ) rest

/-- `Number(s)` on a string; `none` models NaN. -/
def jsNumber (s : String) : Option ℚ :=
  match trimChars s.toList with
  | [] => some 0
  | '+' :: rest => parseUnsignedNum rest
  | '-' :: rest => (parseUnsignedNum rest).map Neg.neg
  | l => parseUnsignedNum l

/-- `Number(String(x).replace(ALL-COMMAS, "")) || 0` from the T86 adapter. -/
def numOr0 (s : String) : ℚ :=
  match jsNumber (String.mk (s.toList.filter (fun c => c ≠ ','))) with
  | some q => q
  | none => 0

/-! ### Formatting helpers used by the extension-ticker price adapter -/

/-- Count of factors `p` in `n` (fuel-bounded; fuel `n` always suffices). -/
def factorCountF (p : ℕ) : ℕ → ℕ → ℕ
  | 0, _ => 0
  | fuel + 1, n => if 2 ≤ p ∧ n ≠ 0 ∧ n % p = 0 then 1 + factorCountF p fuel (n / p) else 0

/-- Smallest `k` with `den ∣ 10 ^ k`, when the denominator is of the form
`2 ^ a * 5 ^ b` (i.e. the rational has a finite decimal expansion). -/
def decExp (den : ℕ) : Option ℕ :=
  let a := factorCountF 2 den den
  let b := factorCountF 5 den den
  if den = 2 ^ a * 5 ^ b then some (max a b) else none

/-- `String(number)` for finite-decimal rationals (shortest decimal form,
which is what JS prints for such values).  Rationals without a finite
decimal expansion — which the modelled payload fields never produce — get
an explicit fraction fallback. -/
def jsNumToString (q : ℚ) : String :=
  match decExp q.den with
  | some k =>
    let m := (q.num * ((10 ^ k : ℕ) / q.den : ℕ)).natAbs
    let sign := if q.num < 0 then "-" else ""
    if k = 0 then sign ++ Nat.repr m
    else sign ++ Nat.repr (m / 10 ^ k) ++ "." ++ padZeros k (m % 10 ^ k)
  | none => (if q.num < 0 then "-" else "") ++ Nat.repr q.num.natAbs ++ "/" ++ Nat.repr q.den

/-- JS `replace(REGEX dot-then-zeros-at-end, "")`. -/
def stripDotZeros (s : String) : String :=
  let l := s.toList.reverse
  let zs := l.takeWhile (fun c => c = '0')
  if zs ≠ [] ∧ (l.drop zs.length).head? = some '.' then
    String.mk ((l.drop (zs.length + 1)).reverse)
  else s

/-- `x.toFixed(2)` per ECMA-262: sign extracted first, then the nearest
hundredth with ties toward the larger candidate. -/
def toFixed2 (x : ℚ) : String :=
  let sign := if x < 0 then "-" else ""
  let a := (⌊|x| * 100 + 1 / 2⌋).toNat
  sign ++ Nat.repr (a / 100) ++ "." ++ padZeros 2 (a % 100)

/-- JS UTF-16 lexicographic string order on BMP strings. -/
def lexLe : List Char → List Char → Bool
  | [], _ => true
  | _ :: _, [] => false
  | a :: as, b :: bs => if a = b then lexLe as bs else decide (a < b)

/-! ### Source adapters

An adapter invocation's upstream interaction is summarised by a
`FetchOutcome`: the fetch promise rejects (`netError`), the response
arrives with `r.ok` false (`httpError`), or a JSON body arrives (`ok`).
`Except.error` in a result type models an exception escaping the
function's own boundary. -/

inductive FetchOutcome (α : Type) where
  | netError
  | httpError
  | ok (body : α)

structure PricePayload where
  close : Option ℚ
  change : Option ℚ
  change_pct : Option ℚ
deriving DecidableEq, Repr

/-- `fetchTwsePrice(ticker)` from the first docs/app.js variant.  The body
is the `j.data` array (`none` when the field is missing, coalesced by
`j?.data || []`).  Row cells are strings; `last?.[6]` etc. are `get? 6`. -/
def fetchTwsePrice (outcome : FetchOutcome (Option (List (List String)))) :
    Except String PricePayload :=
  match outcome with
  | .netError => .error "TypeError: Failed to fetch"
  | .httpError => .error "TWSE 取價失敗"
  | .ok body =>
    let rows := body.getD []
    if rows.length = 0 then .error "TWSE 無資料"
    else
      let last := rows.getD (rows.length - 1) []
      let close := toNumberJS (last.get? 6)
      let prevClose : Option ℚ :=
        if 2 ≤ rows.length then toNumberJS ((rows.getD (rows.length - 2) []).get? 6)
        else none
      let change : Option ℚ :=
        match prevClose, close with
        | some pc, some c => some (c - pc)
        | _, _ => none
      -- changePct = prevClose ? (change / prevClose) * 100 : null
      -- (JS coerces a null change to 0 in the division)
      let changePct : Option ℚ :=
        match prevClose with
        | some pc => if pc = 0 then none else some (change.getD 0 / pc * 100)
        | none => none
      .ok ⟨close, change, changePct⟩

structure ForeignD0 where
  D0 : Option String
deriving DecidableEq, Repr

/-- `fetchTwseForeignD0(ticker)` from the first docs/app.js variant.  Note
that an HTTP failure returns `{ D0: null }` (no throw), while a rejected
fetch promise escapes uncaught. -/
def fetchTwseForeignD0 (ticker : String)
    (outcome : FetchOutcome (Option (List (List String)))) :
    Except String ForeignD0 :=
  match outcome with
  | .netError => .error "TypeError: Failed to fetch"
  | .httpError => .ok ⟨none⟩
  | .ok body =>
    let data := body.getD []
    match data.find? (fun row => jsTrim (row.getD 0 "") == ticker) with
    | some row => .ok ⟨row.get? 4⟩
    | none => .ok ⟨none⟩

/-- `rocToAd(roc)` from the second docs/app.js variant:
`"114/12/30"` becomes `"2025-12-30"`, anything not matching the anchored
regex becomes `null`. -/
def rocToAd (roc : String) : Option String :=
  match (splitOnChar '/' roc.toList []).map String.mk with
  | [ys, ms, ds] =>
    if (2 ≤ ys.length && ys.length ≤ 3 && ys.toList.all Char.isDigit) &&
       (1 ≤ ms.length && ms.length ≤ 2 && ms.toList.all Char.isDigit) &&
       (1 ≤ ds.length && ds.length ≤ 2 && ds.toList.all Char.isDigit) then
      some (Nat.repr (natOfDigits ys.toList + 1911) ++ "-" ++
            (if ms.length < 2 then "0" ++ ms else ms) ++ "-" ++
            (if ds.length < 2 then "0" ++ ds else ds))
    else none
  | _ => none

structure DayRow where
  ad : String
  close : ℚ
  chg : ℚ
deriving DecidableEq, Repr

structure PriceStrPayload where
  close : Option String
  change : Option String
  change_pct : Option String
deriving DecidableEq, Repr

/-- The `try` block of `fetchPriceChangePct(ticker, latestTradingDay)` from
the second docs/app.js variant.  The JS array sort with comparator
`(a, b) => (a.ad > b.ad ? 1 : -1)` is an ascending stable sort on the
ISO-date keys.  When `parsed` is empty, `parsed[-1].close` raises a
TypeError (caught by the wrapper). -/
def fetchPriceChangePctTry (latestTradingDay : String)
    (outcome : FetchOutcome (Option (List (List String)))) :
    Except String PriceStrPayload :=
  match outcome with
  | .netError => .error "TypeError: Failed to fetch"
  | .httpError => .error "TWSE STOCK_DAY failed"
  | .ok body =>
    let rows := body.getD []
    if rows.length = 0 then .error "no rows"
    else
      let parsed := rows.filterMap (fun row =>
        match rocToAd (row.getD 0 ""), toNumberJS (row.get? 6), toNumberJS (row.get? 7) with
        | some ad, some close, some chg => some (⟨ad, close, chg⟩ : DayRow)
        | _, _, _ => none)
      let sorted := parsed.mergeSort (fun a b => lexLe a.ad.toList b.ad.toList)
      if sorted.length = 0 then .error "TypeError: cannot read close of undefined"
      else
        -- idx = findIndex(...); if (idx < 0) idx = parsed.length - 1
        let idx : ℕ :=
          (sorted.findIdx? (fun x => x.ad == latestTradingDay)).getD (sorted.length - 1)
        let cur := sorted.getD idx ⟨"", 0, 0⟩
        let prevClose : Option ℚ :=
          if 1 ≤ idx then some (sorted.getD (idx - 1) ⟨"", 0, 0⟩).close else none
        let pct : Option ℚ :=
          match prevClose with
          | some pc => if pc = 0 then none else some ((cur.close - pc) / pc * 100)
          | none => none
        let closeStr :=
          if cur.close.den = 1 then jsNumToString cur.close
          else stripDotZeros (jsNumToString cur.close)
        let chgStr := (if 0 < cur.chg then "+" else "") ++ stripDotZeros (jsNumToString cur.chg)
        let pctStr : Option String :=
          pct.map (fun p => (if 0 < p then "+" else "") ++ toFixed2 p ++ "%")
        .ok ⟨some closeStr, some chgStr, pctStr⟩

/-- `fetchPriceChangePct` proper: the `catch` converts any thrown error into
an all-null payload carrying no reason. -/
def fetchPriceChangePct (latestTradingDay : String)
    (outcome : FetchOutcome (Option (List (List String)))) :
    Except String PriceStrPayload :=
  match fetchPriceChangePctTry latestTradingDay outcome with
  | .ok p => .ok p
  | .error _ => .ok ⟨none, none, none⟩

/-- `const lots = Math.round(netShares / 1000)` inside `fetchForeignLots`. -/
def lotsOfNetShares (netShares : ℚ) : ℤ :=
  jsRound (netShares / 1000)

/-- `lots.toLocaleString("en-US")`. -/
def intToLocale (i : ℤ) : String :=
  (if i < 0 then "-" else "") ++ groupThousands i.natAbs

/-- `fetchForeignLots(ticker, ymd)` from the second docs/app.js variant.
Everything is inside `try { ... } catch { return null }`, and both
`!r.ok` and an absent row return `null`; the function never throws. -/
def fetchForeignLots (ticker : String)
    (outcome : FetchOutcome (Option (List (List String)))) : Option String :=
  match outcome with
  | .netError => none
  | .httpError => none
  | .ok body =>
    let data := body.getD []
    match data.find? (fun row => jsTrim (row.getD 0 "") == ticker) with
    | some row =>
      match toNumberJS (row.get? 4) with
      | none => none
      | some netShares => some (intToLocale (lotsOfNetShares netShares))
    | none => none

/-! ### T86 foreign-flow map (`fetchTwseT86Map` in the unnamed variant) -/

structure T86Entry where
  buy_shares : ℚ
  sell_shares : ℚ
  net_shares : ℚ
  net_lots : ℚ
deriving DecidableEq, Repr

structure T86Body where
  stat : Option String
  fields : Option (List String)
  data : Option (List (List String))

/-- ASCII upper-casing, JS `toUpperCase` on the payloads in question. -/
def jsToUpper (s : String) : String :=
  s.map Char.toUpper

/-- `a` starts with `b`. -/
def leadsWith : List Char → List Char → Bool
  | _, [] => true
  | [], _ :: _ => false
  | a :: as, b :: bs => a == b && leadsWith as bs

/-- JS `String.prototype.includes`. -/
def containsSub (hay needle : String) : Bool :=
  go hay.toList needle.toList
where
  go : List Char → List Char → Bool
    | [], nd => leadsWith [] nd
    | c :: rest, nd => leadsWith (c :: rest) nd || go rest nd

/-- `fields.findIndex(f => String(f).includes(nd))`, `-1` when absent. -/
def jsFindIncludeIdx (fields : List String) (needle : String) : ℤ :=
  match fields.findIdx? (fun f => containsSub f needle) with
  | some i => (i : ℤ)
  | none => -1

/-- The `idx(needleList)` helper: first needle that hits wins. -/
def t86Idx (fields : List String) : List String → ℤ
  | [] => -1
  | nd :: rest =>
    let i := jsFindIncludeIdx fields nd
    if 0 ≤ i then i else t86Idx fields rest

/-- `String(row[i])` with JS out-of-range semantics (`undefined`). -/
def jsAt (row : List String) (i : ℤ) : String :=
  if 0 ≤ i then row.getD i.toNat "undefined" else "undefined"

/-- One row's map entry:
```js
const buy  = Number(String(row[iBuy]).replace(COMMAS, "")) || 0;
const sell = Number(String(row[iSell]).replace(COMMAS, "")) || 0;
const net  = (iNet >= 0 ? (Number(String(row[iNet]).replace(COMMAS, "")) || 0) : (buy - sell));
mp.set(code, { buy_shares: buy, sell_shares: sell, net_shares: net, net_lots: net / 1000.0 });
```
-/
def t86RowEntry (iBuy iSell iNet : ℤ) (row : List String) : T86Entry :=
  let buy := numOr0 (jsAt row iBuy)
  let sell := numOr0 (jsAt row iSell)
  let net := if 0 ≤ iNet then numOr0 (jsAt row iNet) else buy - sell
  ⟨buy, sell, net, net / 1000⟩

/-- `Map.prototype.set` on an insertion-ordered association list. -/
def upsert (m : List (String × T86Entry)) (k : String) (v : T86Entry) :
    List (String × T86Entry) :=
  if m.any (fun p => p.1 == k) then m.map (fun p => if p.1 == k then (k, v) else p)
  else m ++ [(k, v)]

/-- `Map.prototype.get`. -/
def mapGet (m : List (String × T86Entry)) (k : String) : Option T86Entry :=
  (m.find? (fun p => p.1 == k)).map Prod.snd

/-- `fetchTwseT86Map(ymd)` from the unnamed variant file.  `fetchJson`
throws `HTTP <status>` on a non-ok response; a non-"OK" `stat` and missing
mandatory fields also throw. -/
def fetchTwseT86Map (outcome : FetchOutcome T86Body) :
    Except String (List (String × T86Entry)) :=
  match outcome with
  | .netError => .error "TypeError: Failed to fetch"
  | .httpError => .error "HTTP status not ok"
  | .ok body =>
    if jsToUpper (body.stat.getD "") ≠ "OK" then .error "T86 stat not OK"
    else
      let fields := body.fields.getD []
      let data := body.data.getD []
      let iCode := t86Idx fields ["證券代號"]
      let iBuy := t86Idx fields ["外陸資買進股數", "外資買進股數"]
      let iSell := t86Idx fields ["外陸資賣出股數", "外資賣出股數"]
      let iNet := t86Idx fields ["外陸資買賣超股數", "外資買賣超股數"]
      if iCode < 0 ∨ iBuy < 0 ∨ iSell < 0 then .error "T86 fields not found"
      else
        .ok (data.foldl (fun mp row =>
          upsert mp (jsTrim (jsAt row iCode)) (t86RowEntry iBuy iSell iNet row)) [])

/-- `true` when an `Except` result is a normal return. -/
def exOk {ε α : Type} : Except ε α → Bool
  | .ok _ => true
  | .error _ => false

/-! ### Concrete documents used in counterexamples and probes -/

/-- A ZGB report whose second row group has the digit-prefixed name
`"2345"` with three perfectly numeric fields. -/
def zgbDigitDoc : String :=
  "券商名稱\n買進金額\n賣出金額\n差額\n甲券商\n100\n50\n50\n2345\n30\n20\n10\n乙券商\n7\n8\n-1"

/-- A ZGB report containing the header twice: the first occurrence is
followed by one valid row group, the second by two. -/
def zgbTwoHeaderDoc : String :=
  "券商名稱\n買進金額\n賣出金額\n差額\n甲券商\n1\n2\n3\n券商名稱\n買進金額\n賣出金額\n差額\n丙券商\n5\n6\n7\n丁券商\n1\n1\n0"

/-- A ZGK_D report containing the header twice: the first occurrence is
followed by one valid row group (then a non-numeric line), the second by
two valid row groups. -/
def zgkTwoHeaderDoc : String :=
  "名次\n股票名稱\n超張數\n收盤價\n漲跌\n1\n台積電\n10\n100\n1\n1\n鴻海\n20\n200\n2\n完\n名次\n股票名稱\n超張數\n收盤價\n漲跌\n1\n台積電\n10\n100\n1\n1\n鴻海\n20\n200\n2\n2\n緯創\n5\n50\n1\n2\n廣達\n6\n60\n2"

/-- A ZGK_D report whose second group has a non-numeric sell-side rank, so
the sell sequence ends up shorter than the buy sequence. -/
def zgkSellShortDoc : String :=
  "名次\n股票名稱\n超張數\n收盤價\n漲跌\n1\n台積電\n10\n100\n1\n1\n鴻海\n20\n200\n2\n2\n緯創\n5\n50\n1\nx\n廣達\n6\n60\n2"

/-- A T86 payload whose fields carry the code / gross-buy / gross-sell
columns but no net column, so the adapter derives `net = buy - sell`. -/
def t86NoNetBody : T86Body :=
  ⟨some "OK",
   some ["證券代號", "外陸資買進股數(不含外資自營商)", "外陸資賣出股數(不含外資自營商)"],
   some [["2330", "3,000", "1,500"]]⟩

/-! ## Lemmas: characters and `takeWhile` bookkeeping -/

theorem ws_char_cases (c : Char) (h : c.isWhitespace = true) :
    c = ' ' ∨ c = '\t' ∨ c = '\r' ∨ c = '\n' := by
  have h2 := h
  simp [Char.isWhitespace] at h2
  tauto

theorem ws_props (c : Char) (h : c.isWhitespace = true) :
    c.isDigit = false ∧ c ≠ '-' ∧ c ≠ '.' := by
  rcases ws_char_cases c h with rfl | rfl | rfl | rfl <;> exact ⟨by decide, by decide, by decide⟩

theorem digit_ne_minus (c : Char) (h : c.isDigit = true) : c ≠ '-' := by
  intro e; rw [e] at h; exact absurd h (by decide)

theorem digit_ne_comma (c : Char) (h : c.isDigit = true) : c ≠ ',' := by
  intro e; rw [e] at h; exact absurd h (by decide)

theorem digit_ne_dot (c : Char) (h : c.isDigit = true) : c ≠ '.' := by
  intro e; rw [e] at h; exact absurd h (by decide)

theorem tw_all_false {p : Char → Bool} (w : List Char) (hw : ∀ c ∈ w, p c = false) :
    w.takeWhile p = [] := by
  cases w with
  | nil => rfl
  | cons a as => rw [List.takeWhile_cons, hw a (by simp)]; rfl

theorem tw_nd_append {p : Char → Bool} (x w : List Char) (hw : ∀ c ∈ w, p c = false) :
    (x ++ w).takeWhile p = x.takeWhile p := by
  induction x with
  | nil => simpa using tw_all_false w hw
  | cons a as ih =>
    rw [List.cons_append, List.takeWhile_cons, List.takeWhile_cons]
    cases hpa : p a <;> simp [ih]

theorem tw_all_append {p : Char → Bool} (xs ys : List Char) (h : ∀ x ∈ xs, p x = true) :
    (xs ++ ys).takeWhile p = xs ++ ys.takeWhile p := by
  induction xs with
  | nil => rfl
  | cons a as ih =>
    rw [List.cons_append, List.takeWhile_cons, h a (by simp), if_pos rfl,
      ih (fun x hx => h x (by simp [hx]))]
    rfl

theorem tw_length_le {p : Char → Bool} (l : List Char) :
    (l.takeWhile p).length ≤ l.length := by
  induction l with
  | nil => simp
  | cons a as ih =>
    rw [List.takeWhile_cons]
    cases p a
    · simp
    · simpa using ih

theorem tw_head_false (r : List Char) (h : headIsDigit r = false) :
    r.takeWhile Char.isDigit = [] := by
  cases r with
  | nil => rfl
  | cons a as =>
    simp only [headIsDigit] at h
    rw [List.takeWhile_cons, h]; rfl

/-! ## Lemmas: the regex matcher ignores surrounding whitespace -/

theorem matchDigitsAt_eq_none_iff (l : List Char) :
    matchDigitsAt l = none ↔ l.takeWhile Char.isDigit = [] := by
  unfold matchDigitsAt
  by_cases h : l.takeWhile Char.isDigit = []
  · simp [h]
  · simp only [h, if_neg, if_false]
    split_ifs <;> simp [h]

theorem matchDigitsAt_append_ws (l w : List Char)
    (hw : ∀ c ∈ w, c.isWhitespace = true) :
    matchDigitsAt (l ++ w) = matchDigitsAt l := by
  have hnd : ∀ c ∈ w, c.isDigit = false := fun c hc => (ws_props c (hw c hc)).1
  unfold matchDigitsAt
  rw [tw_nd_append l w hnd]
  by_cases hds : l.takeWhile Char.isDigit = []
  · simp [hds]
  · simp only [hds, if_false]
    have hlen : (l.takeWhile Char.isDigit).length ≤ l.length := tw_length_le l
    rw [List.drop_append_of_le_length hlen]
    cases hr : l.drop (l.takeWhile Char.isDigit).length with
    | nil =>
      simp only [List.nil_append]
      cases hw2 : w with
      | nil => simp
      | cons a as =>
        have ha : a ≠ '.' := (ws_props a (hw a (by rw [hw2]; simp))).2.2
        simp [ha]
    | cons h t =>
      by_cases hdot : h = '.'
      · subst hdot
        simp only [List.cons_append, List.head?_cons, List.tail_cons]
        rw [tw_nd_append t w hnd]
      · simp [hdot]

theorem matchNumAt_cons (c : Char) (rest : List Char) :
    matchNumAt (c :: rest) =
      if c = '-' then (matchDigitsAt rest).map (fun tok => '-' :: tok)
      else matchDigitsAt (c :: rest) := rfl

theorem matchNumAt_ws_head (c : Char) (rest : List Char) (hc : c.isWhitespace = true) :
    matchNumAt (c :: rest) = none := by
  obtain ⟨hd, hm, _⟩ := ws_props c hc
  rw [matchNumAt_cons, if_neg hm, matchDigitsAt_eq_none_iff, List.takeWhile_cons, hd]
  rfl

theorem matchNumAt_append_ws (l w : List Char)
    (hw : ∀ c ∈ w, c.isWhitespace = true) :
    matchNumAt (l ++ w) = matchNumAt l := by
  cases l with
  | nil =>
    simp only [List.nil_append]
    cases hw2 : w with
    | nil => rfl
    | cons a as => rw [matchNumAt_ws_head a as (hw a (by rw [hw2]; simp))]; rfl
  | cons c l2 =>
    rw [List.cons_append, matchNumAt_cons, matchNumAt_cons]
    by_cases hc : c = '-'
    · rw [if_pos hc, if_pos hc, matchDigitsAt_append_ws l2 w hw]
    · rw [if_neg hc, if_neg hc, ← List.cons_append,
        matchDigitsAt_append_ws (c :: l2) w hw]

theorem matchNumAt_nd (c : Char) (rest : List Char) (hc : c.isDigit = false)
    (h2 : c = '-' → headIsDigit rest = false) :
    matchNumAt (c :: rest) = none := by
  rw [matchNumAt_cons]
  by_cases hcm : c = '-'
  · rw [if_pos hcm, (matchDigitsAt_eq_none_iff _).mpr (tw_head_false rest (h2 hcm))]
    rfl
  · rw [if_neg hcm]
    apply (matchDigitsAt_eq_none_iff _).mpr
    rw [List.takeWhile_cons, hc]
    rfl

theorem findNum_nodigit_none (l : List Char) (h : ∀ c ∈ l, c.isDigit = false) :
    findNum l = none := by
  induction l with
  | nil => rfl
  | cons c rest ih =>
    have hm : matchNumAt (c :: rest) = none := by
      apply matchNumAt_nd c rest (h c (by simp))
      intro _
      cases hr : rest with
      | nil => rfl
      | cons c2 r2 => exact h c2 (by rw [hr]; simp)
    show (match matchNumAt (c :: rest) with
      | some tok => some tok
      | none => findNum rest) = none
    rw [hm]
    exact ih (fun x hx => h x (by simp [hx]))

theorem findNum_none_imp (l : List Char) (h : findNum l = none) :
    ∀ c ∈ l, c.isDigit = false := by
  induction l with
  | nil => simp
  | cons c rest ih =>
    have h2 : (match matchNumAt (c :: rest) with
      | some tok => some tok
      | none => findNum rest) = none := h
    cases hm : matchNumAt (c :: rest) with
    | some tok => rw [hm] at h2; exact absurd h2 (by simp)
    | none =>
      rw [hm] at h2
      intro x hx
      rcases List.mem_cons.mp hx with rfl | hx2
      · by_contra hxd
        rw [Bool.not_eq_false] at hxd
        rw [matchNumAt_cons, if_neg (digit_ne_minus x hxd),
          matchDigitsAt_eq_none_iff _, List.takeWhile_cons, hxd] at hm
        exact absurd hm (by simp)
      · exact ih h2 x hx2

theorem findNum_ws_prefix (w m : List Char) (hw : ∀ c ∈ w, c.isWhitespace = true) :
    findNum (w ++ m) = findNum m := by
  induction w with
  | nil => rfl
  | cons c w2 ih =>
    rw [List.cons_append]
    show (match matchNumAt (c :: (w2 ++ m)) with
      | some tok => some tok
      | none => findNum (w2 ++ m)) = findNum m
    rw [matchNumAt_ws_head c (w2 ++ m) (hw c (by simp))]
    exact ih (fun x hx => hw x (by simp [hx]))

theorem findNum_ws_suffix (m w : List Char) (hw : ∀ c ∈ w, c.isWhitespace = true) :
    findNum (m ++ w) = findNum m := by
  induction m with
  | nil =>
    simp only [List.nil_append]
    exact findNum_nodigit_none w (fun c hc => (ws_props c (hw c hc)).1)
  | cons c m2 ih =>
    rw [List.cons_append]
    show (match matchNumAt (c :: (m2 ++ w)) with
      | some tok => some tok
      | none => findNum (m2 ++ w)) =
      (match matchNumAt (c :: m2) with
      | some tok => some tok
      | none => findNum m2)
    rw [← List.cons_append, matchNumAt_append_ws (c :: m2) w hw]
    cases matchNumAt (c :: m2) with
    | some tok => rfl
    | none => exact ih

theorem findNum_trim (l : List Char) : findNum (trimChars l) = findNum l := by
  unfold trimChars
  have h1 : findNum l = findNum (l.dropWhile Char.isWhitespace) := by
    conv_lhs => rw [← List.takeWhile_append_dropWhile (p := Char.isWhitespace) (l := l)]
    exact findNum_ws_prefix _ _ (fun c hc => List.mem_takeWhile_imp hc)
  set m := l.dropWhile Char.isWhitespace with hm
  have h2 : (m.reverse.dropWhile Char.isWhitespace).reverse ++
      (m.reverse.takeWhile Char.isWhitespace).reverse = m := by
    rw [← List.reverse_append, List.takeWhile_append_dropWhile, List.reverse_reverse]
  have h3 : findNum m =
      findNum ((m.reverse.dropWhile Char.isWhitespace).reverse) := by
    conv_lhs => rw [← h2]
    exact findNum_ws_suffix _ _
      (fun c hc => List.mem_takeWhile_imp (List.mem_reverse.mp hc))
  rw [h1, h3]

/-! ## Lemmas: the matcher at a number token -/

theorem matchDigitsAt_token (ip fs r : List Char)
    (hip : ip ≠ []) (hipd : ∀ c ∈ ip, c.isDigit = true)
    (hfsd : ∀ c ∈ fs, c.isDigit = true)
    (hr1 : headIsDigit r = false) (hr2 : startsDotDigit r = false) :
    matchDigitsAt (ip ++ (if fs = [] then [] else '.' :: fs) ++ r) =
      some (ip ++ (if fs = [] then [] else '.' :: fs)) := by
  have hrtw : r.takeWhile Char.isDigit = [] := tw_head_false r hr1
  unfold matchDigitsAt
  rw [List.append_assoc, tw_all_append ip _ hipd]
  by_cases hfs : fs = []
  · simp only [hfs, if_true, List.nil_append, hrtw, List.append_nil]
    rw [if_neg hip, List.drop_left]
    cases hr : r with
    | nil => simp
    | cons a as =>
      by_cases ha : a = '.'
      · subst ha
        simp only [List.head?_cons, List.tail_cons, if_pos rfl]
        have : as.takeWhile Char.isDigit = [] := by
          apply tw_head_false
          rw [hr] at hr2
          cases as with
          | nil => rfl
          | cons b bs => simpa [startsDotDigit, headIsDigit] using hr2
        simp [this]
      · simp [ha]
  · simp only [hfs, if_false]
    have htw2 : (('.' :: fs) ++ r).takeWhile Char.isDigit = [] := by
      rw [List.cons_append, List.takeWhile_cons]; simp
    rw [htw2, List.append_nil, if_neg hip, List.drop_left]
    simp only [List.cons_append, List.head?_cons, if_pos rfl, List.tail_cons]
    rw [tw_all_append fs r hfsd, hrtw, List.append_nil]
    simp [hfs]

theorem matchNumAt_token (sgn : Bool) (ip fs r : List Char)
    (hip : ip ≠ []) (hipd : ∀ c ∈ ip, c.isDigit = true)
    (hfsd : ∀ c ∈ fs, c.isDigit = true)
    (hr1 : headIsDigit r = false) (hr2 : startsDotDigit r = false) :
    matchNumAt (((if sgn then [ '-' ] else []) ++ ip ++
        (if fs = [] then [] else '.' :: fs)) ++ r) =
      some ((if sgn then [ '-' ] else []) ++ ip ++
        (if fs = [] then [] else '.' :: fs)) := by
  have hmd := matchDigitsAt_token ip fs r hip hipd hfsd hr1 hr2
  cases sgn with
  | true =>
    show matchNumAt ('-' :: (ip ++ (if fs = [] then [] else '.' :: fs) ++ r)) =
      some ('-' :: (ip ++ (if fs = [] then [] else '.' :: fs)))
    rw [matchNumAt_cons, if_pos rfl, hmd]
    rfl
  | false =>
    cases hipc : ip with
    | nil => exact absurd hipc hip
    | cons d ds =>
      subst hipc
      have hd : d.isDigit = true := hipd d (by simp)
      show matchNumAt (d :: (ds ++ (if fs = [] then [] else '.' :: fs) ++ r)) =
        some (d :: (ds ++ (if fs = [] then [] else '.' :: fs)))
      rw [matchNumAt_cons, if_neg (digit_ne_minus d hd)]
      exact hmd

theorem findNum_token (sgn : Bool) (ip fs r : List Char)
    (hip : ip ≠ []) (hipd : ∀ c ∈ ip, c.isDigit = true)
    (hfsd : ∀ c ∈ fs, c.isDigit = true)
    (hr1 : headIsDigit r = false) (hr2 : startsDotDigit r = false) :
    findNum (((if sgn then [ '-' ] else []) ++ ip ++
        (if fs = [] then [] else '.' :: fs)) ++ r) =
      some ((if sgn then [ '-' ] else []) ++ ip ++
        (if fs = [] then [] else '.' :: fs)) := by
  have hmt := matchNumAt_token sgn ip fs r hip hipd hfsd hr1 hr2
  cases sgn with
  | true =>
    have hmt2 : matchNumAt ('-' :: (ip ++ (if fs = [] then [] else '.' :: fs) ++ r)) =
        some ('-' :: (ip ++ (if fs = [] then [] else '.' :: fs))) := hmt
    show (match matchNumAt ('-' :: (ip ++ (if fs = [] then [] else '.' :: fs) ++ r)) with
      | some tok => some tok
      | none => findNum (ip ++ (if fs = [] then [] else '.' :: fs) ++ r)) =
      some ('-' :: (ip ++ (if fs = [] then [] else '.' :: fs)))
    rw [hmt2]
  | false =>
    cases hipc : ip with
    | nil => exact absurd hipc hip
    | cons d ds =>
      subst hipc
      have hmt2 : matchNumAt (d :: (ds ++ (if fs = [] then [] else '.' :: fs) ++ r)) =
          some (d :: (ds ++ (if fs = [] then [] else '.' :: fs))) := hmt
      show (match matchNumAt (d :: (ds ++ (if fs = [] then [] else '.' :: fs) ++ r)) with
        | some tok => some tok
        | none => findNum (ds ++ (if fs = [] then [] else '.' :: fs) ++ r)) =
        some (d :: (ds ++ (if fs = [] then [] else '.' :: fs)))
      rw [hmt2]

theorem findNum_nd_prefix (p m : List Char)
    (hp : ∀ c ∈ p, c.isDigit = false) (hlast : p.getLast? ≠ some '-') :
    findNum (p ++ m) = findNum m := by
  induction p with
  | nil => rfl
  | cons c p2 ih =>
    have hm : matchNumAt (c :: (p2 ++ m)) = none := by
      apply matchNumAt_nd c (p2 ++ m) (hp c (by simp))
      intro hcm
      cases hp2 : p2 with
      | nil =>
        exfalso
        apply hlast
        rw [hp2, hcm]
        rfl
      | cons c2 p3 =>
        rw [List.cons_append]
        exact hp c2 (by rw [hp2]; simp)
    rw [List.cons_append]
    show (match matchNumAt (c :: (p2 ++ m)) with
      | some tok => some tok
      | none => findNum (p2 ++ m)) = findNum m
    rw [hm]
    apply ih (fun x hx => hp x (by simp [hx]))
    cases hp2 : p2 with
    | nil => simp
    | cons c2 p3 =>
      intro hl
      apply hlast
      rw [hp2, List.getLast?_cons_cons]
      exact hl

theorem fracOfDigits_nil : fracOfDigits [] = 0 := by
  simp [fracOfDigits, natOfDigits]

theorem unsignedTokenVal_token (ip fs : List Char)
    (hipd : ∀ c ∈ ip, c.isDigit = true) (hfsd : ∀ c ∈ fs, c.isDigit = true) :
    unsignedTokenVal (ip ++ (if fs = [] then [] else '.' :: fs)) =
      (natOfDigits ip : ℚ) + fracOfDigits fs := by
  by_cases hfs : fs = []
  · subst hfs
    rw [if_pos rfl, List.append_nil]
    simp only [unsignedTokenVal]
    rw [List.takeWhile_eq_self_iff.mpr hipd, List.drop_length]
    rw [if_neg (by simp)]
    rw [fracOfDigits_nil, add_zero]
  · rw [if_neg hfs]
    simp only [unsignedTokenVal]
    have htw : (ip ++ '.' :: fs).takeWhile Char.isDigit = ip := by
      rw [tw_all_append ip _ hipd, List.takeWhile_cons]
      simp
    rw [htw, List.drop_left, List.head?_cons, if_pos rfl, List.tail_cons]

theorem numTokenVal_token (sgn : Bool) (ip fs : List Char)
    (hip : ip ≠ []) (hipd : ∀ c ∈ ip, c.isDigit = true)
    (hfsd : ∀ c ∈ fs, c.isDigit = true) :
    numTokenVal ((if sgn then [ '-' ] else []) ++ ip ++
        (if fs = [] then [] else '.' :: fs)) =
      (if sgn then -1 else 1) * ((natOfDigits ip : ℚ) + fracOfDigits fs) := by
  have hu := unsignedTokenVal_token ip fs hipd hfsd
  cases sgn with
  | true =>
    show numTokenVal ('-' :: (ip ++ (if fs = [] then [] else '.' :: fs))) =
      -1 * ((natOfDigits ip : ℚ) + fracOfDigits fs)
    simp only [numTokenVal, List.head?_cons, List.tail_cons]
    rw [if_pos trivial, hu]
    ring
  | false =>
    cases hipc : ip with
    | nil => exact absurd hipc hip
    | cons d ds =>
      subst hipc
      have hd : d.isDigit = true := hipd d (by simp)
      show numTokenVal (d :: (ds ++ (if fs = [] then [] else '.' :: fs))) =
        1 * ((natOfDigits (d :: ds) : ℚ) + fracOfDigits fs)
      simp only [numTokenVal, List.head?_cons, List.tail_cons]
      rw [if_neg (fun hc => digit_ne_minus d hd (Option.some.inj hc))]
      have hu2 : unsignedTokenVal (d :: (ds ++ (if fs = [] then [] else '.' :: fs))) =
          (natOfDigits (d :: ds) : ℚ) + fracOfDigits fs := hu
      rw [hu2]
      ring

/-- C10.  The numeric normalizer `toNumber` (docs/app.js):
(1) it returns the absent value exactly for inputs containing no digit —
never 0 for such inputs; (2) for any string decomposing as digit-free text,
then a signed decimal numeral (optional minus sign, digit run, optional
dot plus digit run), then text that does not extend the numeral, it
returns exactly that numeral's value, commas having been stripped first;
(3) it is insensitive to thousands separators (any two inputs agreeing
after comma removal agree); (4) a null/undefined input yields the absent
value.  Totality — "never raises" — holds by construction: the embedding
is a total function mirroring the source's total string operations. -/
theorem toNumber_spec :
    (∀ s : String, toNumber s = none ↔ ∀ c ∈ s.toList, c.isDigit = false) ∧
    (∀ (sgn : Bool) (ip fs p r : List Char),
      ip ≠ [] → (∀ c ∈ ip, c.isDigit = true) → (∀ c ∈ fs, c.isDigit = true) →
      (∀ c ∈ p, c.isDigit = false) → (∀ c ∈ p, c ≠ ',') → p.getLast? ≠ some '-' →
      headIsDigit r = false → startsDotDigit r = false → (∀ c ∈ r, c ≠ ',') →
      toNumber (String.mk (p ++ ((if sgn then [ '-' ] else []) ++ ip ++
          (if fs = [] then [] else '.' :: fs)) ++ r)) =
        some ((if sgn then -1 else 1) * ((natOfDigits ip : ℚ) + fracOfDigits fs))) ∧
    (∀ s t : String,
      s.toList.filter (fun c => c ≠ ',') = t.toList.filter (fun c => c ≠ ',') →
      toNumber s = toNumber t) ∧
    toNumberJS none = none := by
  refine ⟨?_, ?_, ?_, rfl⟩
  · intro s
    unfold toNumber
    rw [Option.map_eq_none', findNum_trim]
    constructor
    · intro h c hc
      by_contra hcd
      rw [Bool.not_eq_false] at hcd
      have hmem : c ∈ s.toList.filter (fun c => c ≠ ',') := by
        apply List.mem_filter.mpr
        exact ⟨hc, by simpa using digit_ne_comma c hcd⟩
      have := findNum_none_imp _ h c hmem
      rw [this] at hcd
      exact absurd hcd (by simp)
    · intro h
      apply findNum_nodigit_none
      intro c hc
      exact h c (List.mem_filter.mp hc).1
  · intro sgn ip fs p r hip hipd hfsd hp1 hp2 hp3 hr1 hr2 hr3
    unfold toNumber
    have h0 : (String.mk (p ++ ((if sgn then [ '-' ] else []) ++ ip ++
        (if fs = [] then [] else '.' :: fs)) ++ r)).toList =
        p ++ ((if sgn then [ '-' ] else []) ++ ip ++
        (if fs = [] then [] else '.' :: fs)) ++ r := rfl
    rw [h0]
    have hf : (p ++ ((if sgn then [ '-' ] else []) ++ ip ++
        (if fs = [] then [] else '.' :: fs)) ++ r).filter (fun c => c ≠ ',') =
        p ++ ((if sgn then [ '-' ] else []) ++ ip ++
        (if fs = [] then [] else '.' :: fs)) ++ r := by
      apply List.filter_eq_self.mpr
      intro a ha
      simp only [decide_eq_true_eq]
      rcases List.mem_append.mp ha with h1 | h1
      · rcases List.mem_append.mp h1 with h2 | h2
        · exact hp2 a h2
        · rcases List.mem_append.mp h2 with h3 | h3
          · rcases List.mem_append.mp h3 with h4 | h4
            · cases sgn with
              | true =>
                have : a = '-' := by simpa using h4
                rw [this]; decide
              | false => exact absurd h4 (by simp)
            · exact digit_ne_comma a (hipd a h4)
          · by_cases hfs : fs = []
            · rw [hfs] at h3; exact absurd h3 (by simp)
            · rw [if_neg hfs] at h3
              rcases List.mem_cons.mp h3 with rfl | h5
              · decide
              · exact digit_ne_comma a (hfsd a h5)
      · exact hr3 a h1
    rw [hf, findNum_trim, List.append_assoc,
      findNum_nd_prefix p _ hp1 hp3,
      findNum_token sgn ip fs r hip hipd hfsd hr1 hr2,
      Option.map_some', numTokenVal_token sgn ip fs hip hipd hfsd]
  · intro s t h
    unfold toNumber
    rw [h]

/-- Witness for C10: the theorem applied at the concrete decomposition
`"x " ++ "-12.5" ++ " y"`, whose first signed decimal number is -12.5. -/
theorem toNumber_spec_witness : toNumber "x -12.5 y" = some (-(25 : ℚ) / 2) := by
  have h := toNumber_spec.2.1 true [ '1', '2' ] [ '5' ] "x ".toList " y".toList
    (by decide) (by decide) (by decide) (by decide) (by decide) (by decide)
    (by decide) (by decide) (by decide)
  have e : String.mk ("x ".toList ++ ((if true then [ '-' ] else []) ++ [ '1', '2' ] ++
      (if ([ '5' ] : List Char) = [] then [] else '.' :: [ '5' ])) ++ " y".toList) =
      "x -12.5 y" := by decide
  rw [e] at h
  rw [h]
  norm_num [natOfDigits, fracOfDigits,
    show '1'.toNat - '0'.toNat = 1 from by decide,
    show '2'.toNat - '0'.toNat = 2 from by decide,
    show '5'.toNat - '0'.toNat = 5 from by decide]

/-- C7.  The foreign-flow tagging functions (`foreignTag` in docs/app.js and
`badgeForForeignLots` in the unnamed variant) are total and deterministic:
no tag for `|n| < 800`, strong buy for `n ≥ 3000`, buy for `800 ≤ n < 3000`,
strong sell for `n ≤ -3000`, sell otherwise, and no tag on an absent value.
In the badge variant the strength is carried by the `lv3`/`lv2` class. -/
theorem foreign_tag_thresholds (n : ℚ) :
    (|n| < 800 → foreignTag (some n) = none ∧ badgeForForeignLots (some n) = none) ∧
    (3000 ≤ n → foreignTag (some n) = some ⟨"強買超", Cls.pos, Lv.lv3⟩ ∧
      (badgeForForeignLots (some n)).map JsBadge.cls = some "badge pos lv3") ∧
    (800 ≤ n → n < 3000 → foreignTag (some n) = some ⟨"買超", Cls.pos, Lv.lv2⟩ ∧
      (badgeForForeignLots (some n)).map JsBadge.cls = some "badge pos lv2") ∧
    (n ≤ -3000 → foreignTag (some n) = some ⟨"強賣超", Cls.neg, Lv.lv3⟩ ∧
      (badgeForForeignLots (some n)).map JsBadge.cls = some "badge neg lv3") ∧
    (-3000 < n → n ≤ -800 → foreignTag (some n) = some ⟨"賣超", Cls.neg, Lv.lv2⟩ ∧
      (badgeForForeignLots (some n)).map JsBadge.cls = some "badge neg lv2") ∧
    foreignTag none = none ∧ badgeForForeignLots none = none := by
  refine ⟨?_, ?_, ?_, ?_, ?_, rfl, rfl⟩
  · intro h
    constructor
    · simp only [foreignTag]
      rw [if_pos h]
    · simp only [badgeForForeignLots]
      rw [if_pos h]
  · intro h
    have hs := le_abs_self n
    constructor
    · simp only [foreignTag]
      rw [if_neg (show ¬|n| < 800 by linarith), if_pos h]
    · simp only [badgeForForeignLots]
      rw [if_neg (show ¬|n| < 800 by linarith), if_pos (show (0:ℚ) < n by linarith),
        if_pos (show (3000:ℚ) ≤ |n| from le_trans h hs)]
      rfl
  · intro h1 h2
    have habs : |n| = n := abs_of_nonneg (by linarith)
    constructor
    · simp only [foreignTag]
      rw [if_neg (show ¬|n| < 800 by rw [habs]; linarith),
        if_neg (show ¬(3000:ℚ) ≤ n by linarith), if_pos h1]
    · simp only [badgeForForeignLots]
      rw [if_neg (show ¬|n| < 800 by rw [habs]; linarith),
        if_pos (show (0:ℚ) < n by linarith),
        if_neg (show ¬(3000:ℚ) ≤ |n| by rw [habs]; linarith)]
      rfl
  · intro h
    have hs := neg_le_abs n
    constructor
    · simp only [foreignTag]
      rw [if_neg (show ¬|n| < 800 by linarith),
        if_neg (show ¬(3000:ℚ) ≤ n by linarith),
        if_neg (show ¬(800:ℚ) ≤ n by linarith), if_pos h]
    · simp only [badgeForForeignLots]
      rw [if_neg (show ¬|n| < 800 by linarith),
        if_neg (show ¬(0:ℚ) < n by linarith),
        if_pos (show (3000:ℚ) ≤ |n| by linarith)]
      rfl
  · intro h1 h2
    have habs : |n| = -n := abs_of_nonpos (by linarith)
    constructor
    · simp only [foreignTag]
      rw [if_neg (show ¬|n| < 800 by rw [habs]; linarith),
        if_neg (show ¬(3000:ℚ) ≤ n by linarith),
        if_neg (show ¬(800:ℚ) ≤ n by linarith),
        if_neg (show ¬n ≤ (-3000:ℚ) by linarith)]
    · simp only [badgeForForeignLots]
      rw [if_neg (show ¬|n| < 800 by rw [habs]; linarith),
        if_neg (show ¬(0:ℚ) < n by linarith),
        if_neg (show ¬(3000:ℚ) ≤ |n| by rw [habs]; linarith)]
      rfl

/-- Witness for C7: the documented probe inputs 799, 800, 2999, 3000,
-800, -3000 map to no tag, buy, buy, strong buy, sell, strong sell. -/
theorem foreign_tag_thresholds_witness :
    foreignTag (some 799) = none ∧
    foreignTag (some 800) = some ⟨"買超", Cls.pos, Lv.lv2⟩ ∧
    foreignTag (some 2999) = some ⟨"買超", Cls.pos, Lv.lv2⟩ ∧
    foreignTag (some 3000) = some ⟨"強買超", Cls.pos, Lv.lv3⟩ ∧
    foreignTag (some (-800)) = some ⟨"賣超", Cls.neg, Lv.lv2⟩ ∧
    foreignTag (some (-3000)) = some ⟨"強賣超", Cls.neg, Lv.lv3⟩ :=
  ⟨((foreign_tag_thresholds 799).1 (by rw [abs_of_nonneg] <;> norm_num)).1,
   ((foreign_tag_thresholds 800).2.2.1 (by norm_num) (by norm_num)).1,
   ((foreign_tag_thresholds 2999).2.2.1 (by norm_num) (by norm_num)).1,
   ((foreign_tag_thresholds 3000).2.1 (by norm_num)).1,
   ((foreign_tag_thresholds (-800)).2.2.2.2.1 (by norm_num) (by norm_num)).1,
   ((foreign_tag_thresholds (-3000)).2.2.2.1 (by norm_num)).1⟩

/-- Amended C8.  `trendInfo` (docs/app.js) classifies exactly as specified:
on a percent basis with tier-2 boundary 1 and tier-3 boundary 3, direction
from the sign of the change, tier forced to tier 1 when flat or when the
change is absent.  The unnamed-variant `badgeForChange`, however,
classifies on the raw change value with tier-3 boundary 5 (and is flat at
exactly 0 or on a non-finite input). -/
theorem trend_classification :
    (∀ c p : ℚ, 0 < c → 3 ≤ |p| → trendInfo (some c) (some p) = ⟨Cls.pos, Lv.lv3, "📈"⟩) ∧
    (∀ c p : ℚ, 0 < c → 1 ≤ |p| → |p| < 3 → trendInfo (some c) (some p) = ⟨Cls.pos, Lv.lv2, "📈"⟩) ∧
    (∀ c p : ℚ, 0 < c → |p| < 1 → trendInfo (some c) (some p) = ⟨Cls.pos, Lv.lv1, "📈"⟩) ∧
    (∀ c p : ℚ, c < 0 → 3 ≤ |p| → trendInfo (some c) (some p) = ⟨Cls.neg, Lv.lv3, "📉"⟩) ∧
    (∀ c p : ℚ, c < 0 → 1 ≤ |p| → |p| < 3 → trendInfo (some c) (some p) = ⟨Cls.neg, Lv.lv2, "📉"⟩) ∧
    (∀ c p : ℚ, c < 0 → |p| < 1 → trendInfo (some c) (some p) = ⟨Cls.neg, Lv.lv1, "📉"⟩) ∧
    (∀ p : Option ℚ, trendInfo (some 0) p = ⟨Cls.flat, Lv.lv1, "➖"⟩) ∧
    (∀ p : Option ℚ, trendInfo none p = ⟨Cls.flat, Lv.lv1, "➖"⟩) ∧
    (∀ x : ℚ, x ≠ 0 → 5 ≤ |x| →
      (badgeForChange (some x)).cls = "badge " ++ (if 0 < x then "pos" else "neg") ++ " lv3") ∧
    (∀ x : ℚ, x ≠ 0 → 1 ≤ |x| → |x| < 5 →
      (badgeForChange (some x)).cls = "badge " ++ (if 0 < x then "pos" else "neg") ++ " lv2") ∧
    (∀ x : ℚ, x ≠ 0 → |x| < 1 →
      (badgeForChange (some x)).cls = "badge " ++ (if 0 < x then "pos" else "neg") ++ " lv1") ∧
    badgeForChange none = ⟨"badge flat", "—"⟩ ∧
    badgeForChange (some 0) = ⟨"badge flat", "—"⟩ := by
  refine ⟨?_, ?_, ?_, ?_, ?_, ?_, ?_, ?_, ?_, ?_, ?_, rfl, by simp [badgeForChange]⟩
  · intro c p h1 h2
    simp only [trendInfo, Option.getD_some]
    rw [if_pos h2, if_pos h1]
  · intro c p h1 h2 h3
    simp only [trendInfo, Option.getD_some]
    rw [if_neg (show ¬(3:ℚ) ≤ |p| by linarith), if_pos h2, if_pos h1]
  · intro c p h1 h2
    simp only [trendInfo, Option.getD_some]
    rw [if_neg (show ¬(3:ℚ) ≤ |p| by linarith),
      if_neg (show ¬(1:ℚ) ≤ |p| by linarith), if_pos h1]
  · intro c p h1 h2
    simp only [trendInfo, Option.getD_some]
    rw [if_pos h2, if_neg (show ¬(0:ℚ) < c by linarith), if_pos h1]
  · intro c p h1 h2 h3
    simp only [trendInfo, Option.getD_some]
    rw [if_neg (show ¬(3:ℚ) ≤ |p| by linarith), if_pos h2,
      if_neg (show ¬(0:ℚ) < c by linarith), if_pos h1]
  · intro c p h1 h2
    simp only [trendInfo, Option.getD_some]
    rw [if_neg (show ¬(3:ℚ) ≤ |p| by linarith),
      if_neg (show ¬(1:ℚ) ≤ |p| by linarith),
      if_neg (show ¬(0:ℚ) < c by linarith), if_pos h1]
  · intro p
    simp only [trendInfo, Option.getD_some]
    rw [if_neg (lt_irrefl (0:ℚ)), if_neg (lt_irrefl (0:ℚ))]
  · intro p
    simp only [trendInfo, Option.getD_none]
    rw [if_neg (lt_irrefl (0:ℚ)), if_neg (lt_irrefl (0:ℚ))]
  · intro x h0 h5
    simp only [badgeForChange]
    rw [if_neg h0, if_pos h5]
    show _ ++ " " ++ "lv3" = _
    rw [String.append_assoc]
    rfl
  · intro x h0 h1 h5
    simp only [badgeForChange]
    rw [if_neg h0, if_neg (show ¬(5:ℚ) ≤ |x| by linarith), if_pos h1]
    show _ ++ " " ++ "lv2" = _
    rw [String.append_assoc]
    rfl
  · intro x h0 h1
    simp only [badgeForChange]
    rw [if_neg h0, if_neg (show ¬(5:ℚ) ≤ |x| by linarith),
      if_neg (show ¬(1:ℚ) ≤ |x| by linarith)]
    show _ ++ " " ++ "lv1" = _
    rw [String.append_assoc]
    rfl

/-- Counterexample for C8 as stated: at the pair
(change, changePercent) = (4, 4) the claim demands tier 3 (|4| ≥ 3), and
`trendInfo` delivers it, but the cited `badgeForChange` variant classifies
the same movement as tier 2 (its tier-3 boundary is 5, on the raw change). -/
theorem badgeForChange_basis_cex :
    (trendInfo (some 4) (some 4)).lv = Lv.lv3 ∧
    (badgeForChange (some 4)).cls = "badge pos lv2" ∧
    Lv.lv2 ≠ Lv.lv3 := by
  refine ⟨?_, ?_, by decide⟩
  · have h := trend_classification.1 4 4 (by norm_num) (by rw [abs_of_nonneg] <;> norm_num)
    rw [h]
  · have h := trend_classification.2.2.2.2.2.2.2.2.2.1 4 (by norm_num)
      (by rw [abs_of_nonneg] <;> norm_num) (by rw [abs_of_nonneg] <;> norm_num)
    rw [h, if_pos (by norm_num : (0:ℚ) < 4)]
    rfl

/-- Witness for C8: the amended theorem applied at the boundary probes. -/
theorem trend_classification_witness :
    trendInfo (some 1) (some 3) = ⟨Cls.pos, Lv.lv3, "📈"⟩ ∧
    trendInfo (some 1) (some 1) = ⟨Cls.pos, Lv.lv2, "📈"⟩ ∧
    trendInfo (some (-1)) (some (-3)) = ⟨Cls.neg, Lv.lv3, "📉"⟩ ∧
    trendInfo (some (-1)) (some (-1)) = ⟨Cls.neg, Lv.lv2, "📉"⟩ ∧
    trendInfo (some 0) (some 5) = ⟨Cls.flat, Lv.lv1, "➖"⟩ :=
  ⟨trend_classification.1 1 3 (by norm_num) (by rw [abs_of_nonneg] <;> norm_num),
   trend_classification.2.1 1 1 (by norm_num) (by rw [abs_of_nonneg] <;> norm_num)
     (by rw [abs_of_nonneg] <;> norm_num),
   trend_classification.2.2.2.1 (-1) (-3) (by norm_num)
     (by rw [abs_of_nonpos] <;> norm_num),
   trend_classification.2.2.2.2.1 (-1) (-1) (by norm_num)
     (by rw [abs_of_nonpos] <;> norm_num) (by rw [abs_of_nonpos] <;> norm_num),
   trend_classification.2.2.2.2.2.2.1 (some 5)⟩

/-! ## Render sequencer model lemmas -/

theorem rsExec_commits (fixed : List String) (g : ℕ) (ts : List String) :
    ∀ dom : List Card,
      List.foldl (rsStep fixed) dom (ts.map (RSAction.commitExtra g)) =
        dom ++ ts.map (Card.extraCard g) := by
  induction ts with
  | nil => intro dom; simp
  | cons t ts ih =>
    intro dom
    simp only [List.map_cons, List.foldl_cons]
    rw [show rsStep fixed dom (RSAction.commitExtra g t) = dom ++ [Card.extraCard g t]
      from rfl, ih]
    simp

theorem rsExec_program (g : ℕ) (ts : List String) :
    rsExec fixedTickers (rsProgram g ts) =
      fixedTickers.map (Card.fixedCard g) ++ ts.map (Card.extraCard g) := by
  show List.foldl (rsStep fixedTickers) []
    (RSAction.reset g :: ts.map (RSAction.commitExtra g)) = _
  rw [List.foldl_cons,
    show rsStep fixedTickers [] (RSAction.reset g) = fixedTickers.map (Card.fixedCard g)
      from rfl]
  exact rsExec_commits fixedTickers g ts _

/-- Counterexample for C1 as stated.  Invocation G1 (extension "2303") is
issued, then G2 (extension "2454") starts — its reset runs — before G1's
fetch resolves; G2 then runs to completion, and only afterwards does G1's
fetch resolve and commit.  This schedule is a legal interleaving of the two
`renderStocks` invocations, yet the final visible output still contains
G1's stale extension card: nothing in the source compares generations, so
the superseded invocation's results are NOT discarded. -/
theorem renderStocks_stale_commit_cex :
    Interleave (rsProgram 1 [ "2303" ]) (rsProgram 2 [ "2454" ])
      [RSAction.reset 1, RSAction.reset 2,
       RSAction.commitExtra 2 "2454", RSAction.commitExtra 1 "2303"] ∧
    rsExec fixedTickers
      [RSAction.reset 1, RSAction.reset 2,
       RSAction.commitExtra 2 "2454", RSAction.commitExtra 1 "2303"] =
      fixedTickers.map (Card.fixedCard 2) ++
        [Card.extraCard 2 "2454", Card.extraCard 1 "2303"] ∧
    Card.extraCard 1 "2303" ∈ rsExec fixedTickers
      [RSAction.reset 1, RSAction.reset 2,
       RSAction.commitExtra 2 "2454", RSAction.commitExtra 1 "2303"] ∧
    Card.gen (Card.extraCard 1 "2303") ≠ 2 := by
  refine ⟨?_, rfl, by decide, by decide⟩
  show Interleave [RSAction.reset 1, RSAction.commitExtra 1 "2303"]
    [RSAction.reset 2, RSAction.commitExtra 2 "2454"]
    [RSAction.reset 1, RSAction.reset 2,
     RSAction.commitExtra 2 "2454", RSAction.commitExtra 1 "2303"]
  exact Interleave.left (Interleave.right (Interleave.right (Interleave.left Interleave.nil)))

/-- Amended C1.  `renderStocks` has no generation discipline: every
invocation clears and appends unconditionally, so in the schedule where a
second invocation runs to completion while the first is suspended in its
fetch, the first invocation's results are still committed when its fetch
resolves — the final output is the second invocation's cards followed by
the first's stale extension card, for any pair of extension tickers. -/
theorem renderStocks_no_generation_guard (t1 t2 : String) :
    Interleave (rsProgram 1 [t1]) (rsProgram 2 [t2])
      [RSAction.reset 1, RSAction.reset 2,
       RSAction.commitExtra 2 t2, RSAction.commitExtra 1 t1] ∧
    rsExec fixedTickers
      [RSAction.reset 1, RSAction.reset 2,
       RSAction.commitExtra 2 t2, RSAction.commitExtra 1 t1] =
      fixedTickers.map (Card.fixedCard 2) ++
        [Card.extraCard 2 t2, Card.extraCard 1 t1] ∧
    Card.extraCard 1 t1 ∈ rsExec fixedTickers
      [RSAction.reset 1, RSAction.reset 2,
       RSAction.commitExtra 2 t2, RSAction.commitExtra 1 t1] := by
  refine ⟨?_, rfl, ?_⟩
  · show Interleave [RSAction.reset 1, RSAction.commitExtra 1 t1]
      [RSAction.reset 2, RSAction.commitExtra 2 t2]
      [RSAction.reset 1, RSAction.reset 2,
       RSAction.commitExtra 2 t2, RSAction.commitExtra 1 t1]
    exact Interleave.left (Interleave.right (Interleave.right (Interleave.left Interleave.nil)))
  · have heq : rsExec fixedTickers
        [RSAction.reset 1, RSAction.reset 2,
         RSAction.commitExtra 2 t2, RSAction.commitExtra 1 t1] =
        fixedTickers.map (Card.fixedCard 2) ++
          [Card.extraCard 2 t2, Card.extraCard 1 t1] := rfl
    rw [heq]
    simp

/-! ## Extension-set pipeline (C3) -/

/-- Counterexample for C3 as stated: the stored extension list
`["2303", "2303", "AB"]` yields TWO extension entities for 2303 in both
script variants (the invalid "AB" is dropped, but nothing deduplicates the
list against itself), not exactly one as claimed. -/
theorem extras_duplicate_cex :
    initExtras (some [ "2303", "2303", "AB" ]) fixedTickers = [ "2303", "2303" ] ∧
    renderAllExtras (some [ "2303", "2303", "AB" ]) = [ "2303", "2303" ] ∧
    (initExtras (some [ "2303", "2303", "AB" ]) fixedTickers).length ≠ 1 := by
  refine ⟨by decide, by decide, by decide⟩

theorem normTicker_shape (s : Option String) (h : normTicker s ≠ "") :
    isTickerShape (normTicker s) = true := by
  simp only [normTicker] at h ⊢
  split_ifs at h ⊢ with h1 h2
  · exact absurd rfl h
  · exact h2
  · exact absurd rfl h

/-- Amended C3.  Every surviving extension entry matches the TickerId
pattern; the `init` variant also rejects entries already in the fixed set
(the `renderAll`/`apply` variant does not); at most two extension entries
survive; the rendered order is the fixed cards in canonical order followed
by the extension cards in input order; but the extension list is NOT
deduplicated against itself: `["2303", "2303", "AB"]` keeps both "2303"
occurrences. -/
theorem extras_pipeline_props :
    (∀ stored fixed, (initExtras stored fixed).length ≤ 2) ∧
    (∀ stored fixed x, x ∈ initExtras stored fixed →
      isTickerShape x = true ∧ fixed.contains x = false) ∧
    (∀ stored, (renderAllExtras stored).length ≤ 2) ∧
    (∀ stored x, x ∈ renderAllExtras stored → isValidTicker (some x) = true) ∧
    (∀ tickers, (applyExtras tickers).length ≤ 2) ∧
    (∀ tickers x, x ∈ applyExtras tickers → isValidTicker (some x) = true) ∧
    (∀ g extras, rsExec fixedTickers (rsProgram g extras) =
      fixedTickers.map (Card.fixedCard g) ++ extras.map (Card.extraCard g)) ∧
    initExtras (some [ "2303", "2303", "AB" ]) fixedTickers = [ "2303", "2303" ] := by
  refine ⟨?_, ?_, ?_, ?_, ?_, ?_, ?_, by decide⟩
  · intro stored fixed
    have hl : (readExtraTickers stored).length = 2 := by cases stored <;> rfl
    calc (initExtras stored fixed).length
        ≤ ((readExtraTickers stored).map (fun s => normTicker (some s))).length :=
          List.length_filter_le _ _
      _ = 2 := by rw [List.length_map, hl]
  · intro stored fixed x hx
    obtain ⟨hmem, hpred⟩ := List.mem_filter.mp hx
    simp only [Bool.and_eq_true, bne_iff_ne, Bool.not_eq_true'] at hpred
    obtain ⟨hne, hcont⟩ := hpred
    refine ⟨?_, hcont⟩
    obtain ⟨s, _, rfl⟩ := List.mem_map.mp hmem
    exact normTicker_shape (some s) hne
  · intro stored
    refine le_trans (List.length_filter_le _ _) ?_
    unfold getExtraTickers
    cases stored with
    | none => simp
    | some arr =>
      rw [List.length_take]
      exact min_le_left _ _
  · intro stored x hx
    exact (List.mem_filter.mp hx).2
  · intro tickers
    refine le_trans (List.length_filter_le _ _) ?_
    rw [List.length_take]
    exact min_le_left _ _
  · intro tickers x hx
    exact (List.mem_filter.mp hx).2
  · intro g extras
    exact rsExec_program g extras

/-- Witness for C3's amended theorem, applied at the concrete stored list
`["2303", "2303", "AB"]`. -/
theorem extras_pipeline_props_witness :
    isTickerShape "2303" = true ∧ fixedTickers.contains "2303" = false :=
  extras_pipeline_props.2.1 (some [ "2303", "2303", "AB" ]) fixedTickers "2303" (by decide)

/-! ## ZGK admission asymmetry (C6) -/

theorem zgk_aux_sell_le (lines : List String) :
    ∀ (fuel j : ℕ) (buy sell : List ZgkRow), sell.length ≤ buy.length →
      ((zgkAux lines fuel j buy sell).2).length ≤ ((zgkAux lines fuel j buy sell).1).length := by
  intro fuel
  induction fuel with
  | zero => intro j buy sell h; exact h
  | succ fuel ih =>
    intro j buy sell h
    simp only [zgkAux]
    split_ifs
    all_goals
      first
        | exact h
        | (apply ih; simp; omega)
        | (simp; omega)

theorem zgk_sell_le_buy (raw : Option String) :
    ((parseZgkD raw).sell).length ≤ ((parseZgkD raw).buy).length := by
  cases raw with
  | none => simp [parseZgkD]
  | some text =>
    simp only [parseZgkD]
    split_ifs with h
    · simp
    · cases hidx : zgkHeadIdx (jsLines text) with
      | none => simp
      | some i =>
        show ((zgkRowsFrom (jsLines text) (i + 5)).2).length ≤
          ((zgkRowsFrom (jsLines text) (i + 5)).1).length
        exact zgk_aux_sell_le (jsLines text) _ _ [] [] (Nat.le_refl 0)

/-- Counterexample for C6 as stated: there is NO input on which the buy
sequence is the shorter one — each admitted group always contributes a buy
row and only conditionally a sell row, so the sell side never exceeds the
buy side. -/
theorem zgk_buy_never_shorter_cex :
    ¬ ∃ raw : Option String,
      ((parseZgkD raw).buy).length < ((parseZgkD raw).sell).length := by
  rintro ⟨raw, hlt⟩
  have := zgk_sell_le_buy raw
  omega

/-- Amended C6.  The sell sub-row of a group is admitted independently of
nothing: it is admitted only when its own rank field is numeric, while the
buy sub-row of every scanned group is always admitted; hence the sell
sequence may be strictly shorter (witnessed concretely) but is never
longer. -/
theorem zgk_side_lengths :
    (∀ raw : Option String,
      ((parseZgkD raw).sell).length ≤ ((parseZgkD raw).buy).length) ∧
    ((parseZgkD (some zgkSellShortDoc)).buy).length = 2 ∧
    ((parseZgkD (some zgkSellShortDoc)).sell).length = 1 :=
  ⟨zgk_sell_le_buy, by decide, by decide⟩

/-! ## ZGB broker-row admission (C5) -/

theorem zgb_aux_broker (lines : List String) :
    ∀ (fuel j : ℕ) (rows : List ZgbRow),
      (∀ r ∈ rows, isBrokerName r.name = true) →
      ∀ r ∈ zgbParseAtAux lines fuel j rows, isBrokerName r.name = true := by
  intro fuel
  induction fuel with
  | zero => intro j rows h; exact h
  | succ fuel ih =>
    intro j rows h
    simp only [zgbParseAtAux]
    by_cases h1 : j + 3 < lines.length
    · rw [if_pos h1]
      split
      · rename_i nb ns nd
        split_ifs with hbn h6 h6b
        · intro r hr
          rcases List.mem_append.mp hr with h2 | h2
          · exact h r h2
          · rw [List.mem_singleton] at h2
            subst h2
            exact hbn
        · apply ih
          intro r hr
          rcases List.mem_append.mp hr with h2 | h2
          · exact h r h2
          · rw [List.mem_singleton] at h2
            subst h2
            exact hbn
        · exact h
        · exact ih _ _ h
      · exact h
    · rw [if_neg h1]
      exact h

theorem zgbParseAt_broker (lines : List String) (i : ℕ) :
    ∀ r ∈ zgbParseAt lines i, isBrokerName r.name = true :=
  zgb_aux_broker lines _ _ [] (by simp)

theorem zgbBest_broker (lines : List String) :
    ∀ r ∈ zgbBest lines, isBrokerName r.name = true := by
  suffices hgen : ∀ (idxs : List ℕ) (acc : List ZgbRow),
      (∀ r ∈ acc, isBrokerName r.name = true) →
      ∀ r ∈ idxs.foldl (fun best i =>
        let rows := zgbParseAt lines i
        if best.length < rows.length then rows else best) acc,
        isBrokerName r.name = true from
    hgen (zgbHeaderIdxs lines) [] (by simp)
  intro idxs
  induction idxs with
  | nil => intro acc hacc; exact hacc
  | cons i is ih =>
    intro acc hacc
    simp only [List.foldl_cons]
    apply ih
    split_ifs with hlen
    · exact zgbParseAt_broker lines i
    · exact hacc

/-- C5.  Broker-flow row admission: no admitted row's name starts with a
digit (a digit-prefixed group such as "2345" is skipped even when its three
numeric fields parse — shown concretely on `zgbDigitDoc`, where the "2345"
group sits between two admitted broker rows), and the row list never holds
more than 6 rows. -/
theorem parseZgb_row_admission :
    (∀ raw, ∀ r ∈ (parseZgb raw).rows, isBrokerName r.name = true) ∧
    (∀ raw, ((parseZgb raw).rows).length ≤ 6) ∧
    (parseZgb (some zgbDigitDoc)).rows.map ZgbRow.name = [ "甲券商", "乙券商" ] ∧
    toNumber "30" = some 30 ∧ toNumber "20" = some 20 ∧ toNumber "10" = some 10 := by
  refine ⟨?_, ?_, by decide, by decide, by decide, by decide⟩
  · intro raw
    cases raw with
    | none => simp [parseZgb]
    | some text =>
      simp only [parseZgb]
      split_ifs with he hb
      · simp
      · simp
      · intro r hr
        exact zgbBest_broker (jsLines text) r (List.mem_of_mem_take hr)
  · intro raw
    cases raw with
    | none => simp [parseZgb]
    | some text =>
      simp only [parseZgb]
      split_ifs with he hb
      · simp
      · simp
      · show (((zgbBest (jsLines text)).take 6)).length ≤ 6
        rw [List.length_take]
        exact min_le_left _ _

/-- Witness for C5: the admission invariant applied to a concrete admitted
row of `zgbDigitDoc`. -/
theorem parseZgb_row_admission_witness :
    isBrokerName (ZgbRow.name ⟨ "甲券商", 100, 50, 50 ⟩) = true :=
  parseZgb_row_admission.1 (some zgbDigitDoc) ⟨ "甲券商", 100, 50, 50 ⟩ (by decide)

/-! ## Candidate selection across repeated headers (C4) -/

theorem zgb_aux_len6 (lines : List String) :
    ∀ (fuel j : ℕ) (rows : List ZgbRow), rows.length < 6 →
      (zgbParseAtAux lines fuel j rows).length ≤ 6 := by
  intro fuel
  induction fuel with
  | zero => intro j rows h; exact le_of_lt h
  | succ fuel ih =>
    intro j rows h
    simp only [zgbParseAtAux]
    by_cases h1 : j + 3 < lines.length
    · rw [if_pos h1]
      split
      · rename_i nb ns nd
        split_ifs with hbn h6 h6b
        · simp only [List.length_append, List.length_cons, List.length_nil]
          omega
        · apply ih
          simp only [List.length_append, List.length_cons, List.length_nil] at h6 ⊢
          omega
        · omega
        · exact ih _ _ h
      · exact le_of_lt h
    · rw [if_neg h1]
      exact le_of_lt h

theorem zgbParseAt_le6 (lines : List String) (i : ℕ) :
    (zgbParseAt lines i).length ≤ 6 :=
  zgb_aux_len6 lines _ _ [] (by simp)

theorem zgbBest_le6 (lines : List String) : (zgbBest lines).length ≤ 6 := by
  suffices hgen : ∀ (idxs : List ℕ) (acc : List ZgbRow), acc.length ≤ 6 →
      (idxs.foldl (fun best i =>
        let rows := zgbParseAt lines i
        if best.length < rows.length then rows else best) acc).length ≤ 6 from
    hgen (zgbHeaderIdxs lines) [] (by simp)
  intro idxs
  induction idxs with
  | nil => intro acc hacc; exact hacc
  | cons i is ih =>
    intro acc hacc
    simp only [List.foldl_cons]
    apply ih
    split_ifs with hlen
    · exact zgbParseAt_le6 lines i
    · exact hacc

theorem zgbBest_ge (lines : List String) :
    ∀ i ∈ zgbHeaderIdxs lines, (zgbParseAt lines i).length ≤ (zgbBest lines).length := by
  suffices hgen : ∀ (idxs : List ℕ) (acc : List ZgbRow),
      acc.length ≤ (idxs.foldl (fun best i =>
        let rows := zgbParseAt lines i
        if best.length < rows.length then rows else best) acc).length ∧
      ∀ i ∈ idxs, (zgbParseAt lines i).length ≤ (idxs.foldl (fun best i =>
        let rows := zgbParseAt lines i
        if best.length < rows.length then rows else best) acc).length from
    (hgen (zgbHeaderIdxs lines) []).2
  intro idxs
  induction idxs with
  | nil => intro acc; exact ⟨le_refl _, by simp⟩
  | cons i is ih =>
    intro acc
    simp only [List.foldl_cons]
    obtain ⟨h1, h2⟩ := ih (if acc.length < (zgbParseAt lines i).length
      then zgbParseAt lines i else acc)
    have hacc : acc.length ≤ (if acc.length < (zgbParseAt lines i).length
        then zgbParseAt lines i else acc).length := by
      split_ifs with hl
      · omega
      · exact le_refl _
    have hi : (zgbParseAt lines i).length ≤ (if acc.length < (zgbParseAt lines i).length
        then zgbParseAt lines i else acc).length := by
      split_ifs with hl
      · exact le_refl _
      · omega
    refine ⟨le_trans hacc h1, ?_⟩
    intro k hk
    rcases List.mem_cons.mp hk with rfl | hk2
    · exact le_trans hi h1
    · exact h2 k hk2

/-- Counterexample for C4 as stated: `parseZgkD` takes only the FIRST
header occurrence.  In `zgkTwoHeaderDoc` the first header (line 0) is
followed by 1 valid group while the second header (line 16) is followed by
2, yet the parser returns 1 row — not the candidate with more admitted
rows. -/
theorem parseZgkD_first_header_cex :
    (parseZgkD (some zgkTwoHeaderDoc)).buy.length = 1 ∧
    zgkHeaderAt (jsLines zgkTwoHeaderDoc) 16 = true ∧
    (zgkRowsFrom (jsLines zgkTwoHeaderDoc) 21).1.length = 2 :=
  ⟨by decide, by decide, by decide⟩

/-- Amended C4.  Only the broker-flow parser records every header
occurrence and keeps the candidate with the most admitted rows (shown
generally, and concretely on `zgbTwoHeaderDoc` where the second, richer
occurrence wins); the dual-ranking parser instead parses after the first
header occurrence only. -/
theorem parser_candidate_selection :
    (∀ s i, i ∈ zgbHeaderIdxs (jsLines s) →
      (zgbParseAt (jsLines s) i).length ≤ ((parseZgb (some s)).rows).length) ∧
    (parseZgb (some zgbTwoHeaderDoc)).rows.map ZgbRow.name = [ "丙券商", "丁券商" ] ∧
    (parseZgkD (some zgkTwoHeaderDoc)).buy.length = 1 ∧
    zgkHeaderAt (jsLines zgkTwoHeaderDoc) 16 = true ∧
    (zgkRowsFrom (jsLines zgkTwoHeaderDoc) 21).1.length = 2 := by
  refine ⟨?_, by decide, by decide, by decide, by decide⟩
  intro s i hi
  simp only [parseZgb]
  split_ifs with he hb
  · subst he
    have hempty : zgbHeaderIdxs (jsLines "") = [] := rfl
    rw [hempty] at hi
    exact absurd hi (List.not_mem_nil i)
  · have hle := zgbBest_ge (jsLines s) i hi
    show (zgbParseAt (jsLines s) i).length ≤ ([] : List ZgbRow).length
    simp only [List.length_nil]
    omega
  · have htake : (zgbBest (jsLines s)).take 6 = zgbBest (jsLines s) :=
      List.take_of_length_le (zgbBest_le6 (jsLines s))
    show (zgbParseAt (jsLines s) i).length ≤ ((zgbBest (jsLines s)).take 6).length
    rw [htake]
    exact zgbBest_ge (jsLines s) i hi

/-- Witness for C4's amended theorem: applied at the second header index
of the two-header ZGB document. -/
theorem parser_candidate_selection_witness :
    (zgbParseAt (jsLines zgbTwoHeaderDoc) 8).length ≤
      ((parseZgb (some zgbTwoHeaderDoc)).rows).length :=
  parser_candidate_selection.1 zgbTwoHeaderDoc 8 (by decide)

/-! ## Adapter error discipline (C2) -/

/-- Counterexample for C2 as stated: `fetchTwsePrice` lets an exception
escape its own boundary on an HTTP failure (the thrown `Error("TWSE
取価失敗")` is caught only by the caller's per-card handler), instead of
returning a tagged Success/Failure value. -/
theorem fetchTwsePrice_throws_cex :
    fetchTwsePrice FetchOutcome.httpError = Except.error "TWSE 取價失敗" ∧
    exOk (fetchTwsePrice FetchOutcome.httpError) = false :=
  ⟨rfl, rfl⟩

/-- Amended C2.  No adapter returns a tagged Success/Failure union:
`fetchTwsePrice` throws on network failure, HTTP failure and empty
payload; `fetchTwseForeignD0` propagates a network rejection but maps an
HTTP failure to a null payload; `fetchPriceChangePct` and
`fetchForeignLots` never throw, signalling every failure only by
null-valued payloads that carry no reason string. -/
theorem adapters_error_discipline :
    (∀ (latest : String) (outcome : FetchOutcome (Option (List (List String)))),
      exOk (fetchPriceChangePct latest outcome) = true) ∧
    (∀ latest : String, fetchPriceChangePct latest FetchOutcome.httpError =
      Except.ok ⟨none, none, none⟩) ∧
    fetchTwsePrice FetchOutcome.netError = Except.error "TypeError: Failed to fetch" ∧
    fetchTwsePrice FetchOutcome.httpError = Except.error "TWSE 取價失敗" ∧
    fetchTwsePrice (FetchOutcome.ok (some [])) = Except.error "TWSE 無資料" ∧
    fetchTwsePrice (FetchOutcome.ok none) = Except.error "TWSE 無資料" ∧
    (∀ t : String, fetchTwseForeignD0 t FetchOutcome.netError =
      Except.error "TypeError: Failed to fetch") ∧
    (∀ t : String, fetchTwseForeignD0 t FetchOutcome.httpError = Except.ok ⟨none⟩) ∧
    (∀ t : String, fetchForeignLots t FetchOutcome.netError = none ∧
      fetchForeignLots t FetchOutcome.httpError = none) := by
  refine ⟨?_, fun latest => rfl, rfl, rfl, rfl, rfl,
    fun t => rfl, fun t => rfl, fun t => ⟨rfl, rfl⟩⟩
  intro latest outcome
  cases ho : fetchPriceChangePctTry latest outcome with
  | ok p => simp [fetchPriceChangePct, ho, exOk]
  | error e => simp [fetchPriceChangePct, ho, exOk]

/-! ## Net-lots derivation (C9) -/

/-- Counterexample for C9 as stated: in `fetchTwseT86Map`, with no net
column in the payload, the entry for 2330 is built with
`net = buy − sell = 1500` but `net_lots = net / 1000 = 3/2` — plain
division, NOT the claimed `round(netShares / 1000) = 2`. -/
theorem t86_net_lots_no_round_cex :
    fetchTwseT86Map (FetchOutcome.ok t86NoNetBody) =
      Except.ok [("2330", t86RowEntry 1 2 (-1) [ "2330", "3,000", "1,500" ])] ∧
    (t86RowEntry 1 2 (-1) [ "2330", "3,000", "1,500" ]).net_shares = 1500 ∧
    (t86RowEntry 1 2 (-1) [ "2330", "3,000", "1,500" ]).net_lots = 3 / 2 ∧
    ((3 : ℚ) / 2) ≠ ((round ((1500 : ℚ) / 1000) : ℤ) : ℚ) := by
  have hb : numOr0 (jsAt [ "2330", "3,000", "1,500" ] 1) = 3000 := by decide
  have hs : numOr0 (jsAt [ "2330", "3,000", "1,500" ] 2) = 1500 := by decide
  refine ⟨by with_unfolding_all rfl, ?_, ?_, ?_⟩
  · simp only [t86RowEntry]
    rw [if_neg (by decide : ¬((0:ℤ) ≤ -1)), hb, hs]
    norm_num
  · simp only [t86RowEntry]
    rw [if_neg (by decide : ¬((0:ℤ) ≤ -1)), hb, hs]
    norm_num
  · rw [round_eq]
    norm_num

/-- Amended C9.  `fetchForeignLots` derives the lots figure as
`round(netShares / 1000)` — genuine half-up rounding, shown both
generally (`lotsOfNetShares` coincides with the mathematical `round`) and
concretely (1500 net shares become 2 lots, where truncation or plain
division would give 1 or 1.5).  `fetchTwseT86Map` instead uses the
reported net-shares figure when its column exists, `buy − sell`
otherwise, and derives `net_lots` by plain division by 1000. -/
theorem net_lots_derivation :
    (∀ q : ℚ, lotsOfNetShares q = round (q / 1000)) ∧
    (∀ (iB iS : ℤ) (row : List String),
      (t86RowEntry iB iS (-1) row).net_shares =
        numOr0 (jsAt row iB) - numOr0 (jsAt row iS)) ∧
    (∀ (iB iS iN : ℤ) (row : List String), 0 ≤ iN →
      (t86RowEntry iB iS iN row).net_shares = numOr0 (jsAt row iN)) ∧
    (∀ (iB iS iN : ℤ) (row : List String),
      (t86RowEntry iB iS iN row).net_lots = (t86RowEntry iB iS iN row).net_shares / 1000) ∧
    fetchForeignLots "2330"
      (FetchOutcome.ok (some [[ "2330", "x", "x", "x", "1,500" ]])) = some "2" := by
  refine ⟨?_, ?_, ?_, ?_, ?_⟩
  · intro q
    unfold lotsOfNetShares jsRound
    rw [round_eq]
  · intro iB iS row
    simp only [t86RowEntry]
    rw [if_neg (by decide : ¬((0:ℤ) ≤ -1))]
  · intro iB iS iN row h
    simp only [t86RowEntry]
    rw [if_pos h]
  · intro iB iS iN row
    rfl
  · have hts : toNumberJS (some "1,500") = some 1500 := by decide
    show (match toNumberJS (some "1,500") with
      | none => none
      | some netShares => some (intToLocale (lotsOfNetShares netShares))) = some "2"
    rw [hts]
    show some (intToLocale (lotsOfNetShares 1500)) = some "2"
    have hl : lotsOfNetShares 1500 = 2 := by
      unfold lotsOfNetShares jsRound
      norm_num
    rw [hl]
    decide

end TwStock
